import Mathlib

/-!
# authorizer: the ACL engine over a document store

A shallow embedding of `models.go`, `util.go` and the batch handlers of `handlers.go` of
johnnadratowski/authorizer.

The engine (`ACL.Grant`, `ACL.Deny`, `ACL.Revoke`, `ACL.Set`, `ACL.Has`, `ACL.Get`,
`ACL.List`, `ACL.Match`, ...) builds selector and update documents (`bson.M`) and hands
them to an mgo collection.  The documents are built here exactly as the Go code builds
them, string concatenation `"privileges." ++ name` included.  The collection itself is
an external collaborator (labix.org/v2/mgo over MongoDB); its primitives `Find`, `One`,
`All`, `Distinct` and `Upsert` are modelled after the documented behaviour of the store:

* a selector is a conjunction of equality conditions on dotted field paths; a condition
  holds when the addressed value equals the operand, or is an array holding an element
  equal to the operand; a path steps through embedded documents and through the
  embedded documents that are elements of an array;
* `Upsert` changes the first document the selector matches, or inserts a new document
  when there is none: for an operator update (`$set`, `$unset`) the new document starts
  from the equality fields of the selector, for a replacement update it is the
  replacement;
* `$set` creates missing embedded documents on its way and fails when it has to step
  through a value that is no document (an array is entered by a position only);
  `$unset` of a missing path changes nothing; an operator update is rejected as a whole
  when two of its paths collide (one is a prefix of the other) or when a path has an
  empty or `$`-prefixed component; an operator without fields is accepted and changes
  nothing; a replacement document is stored as it is given; a rejected update leaves
  the collection as it was;
* the collection holds documents of `ACL` shape only (nothing else is ever written to
  it by this program), kept in decoded form and re-encoded with `ACL.toDoc` whenever a
  selector or an update is applied; nothing makes the tuples of two records differ (the
  index of `EnsureIndex` is never requested by the program), so a collection may hold
  several records of one tuple; `_id`, `ChangeInfo` and connection failures are left
  out.
-/

namespace Authorizer

/-! ## BSON values and `bson.M` -/

/-- A BSON / JSON value, the Go `interface{}` stored in a document. -/
inductive Value where
  | null
  | bool (b : Bool)
  | num (n : Int)
  | str (s : String)
  | arr (items : List Value)
  | doc (fields : List (String × Value))
  deriving Inhabited

/-- The Go `bson.M` / `map[string]interface{}`: a finite map kept as an association list. -/
abbrev M := List (String × Value)

mutual
/-- Equality of two BSON values (field order matters inside documents). -/
def Value.beq : Value → Value → Bool
  | .null, .null => true
  | .bool a, .bool b => a == b
  | .num a, .num b => a == b
  | .str a, .str b => a == b
  | .arr a, .arr b => Value.beqList a b
  | .doc a, .doc b => Value.beqFields a b
  | _, _ => false
/-- Equality of two arrays of BSON values. -/
def Value.beqList : List Value → List Value → Bool
  | [], [] => true
  | a :: as, b :: bs => Value.beq a b && Value.beqList as bs
  | _, _ => false
/-- Equality of two field lists. -/
def Value.beqFields : List (String × Value) → List (String × Value) → Bool
  | [], [] => true
  | (k, a) :: as, (j, b) :: bs => k == j && Value.beq a b && Value.beqFields as bs
  | _, _ => false
end

/-- Map lookup `m[k]`. -/
def mapGet : M → String → Option Value
  | [], _ => none
  | (k', v) :: t, k => if k' = k then some v else mapGet t k

/-- Map deletion `delete(m, k)`. -/
def mapDelete : M → String → M
  | [], _ => []
  | (k', v) :: t, k => if k' = k then mapDelete t k else (k', v) :: mapDelete t k

/-- Map assignment `m[k] = v`: the entry of `k` is replaced where it stands, or added
at the end; a map holds one entry per key. -/
def mapSet : M → String → Value → M
  | [], k, v => [(k, v)]
  | (k', v') :: t, k, v =>
    if k' = k then (k, v) :: mapDelete t k else (k', v') :: mapSet t k v

/-- The keys of a map. -/
def mapKeys (m : M) : List String := m.map (fun e => e.1)

/-- Source `copyMap` (util.go): a fresh map that receives every entry of `toCopy`. -/
def copyMap (toCopy : M) : M :=
  toCopy.foldl (fun copyTo e => mapSet copyTo e.1 e.2) []

/-! ## Dotted field paths -/

/-- The pieces of a key between its dots. -/
def splitDots : List Char → List (List Char)
  | [] => [[]]
  | c :: cs =>
    if c = '.' then [] :: splitDots cs
    else match splitDots cs with
      | h :: t => (c :: h) :: t
      | [] => [[c]]

/-- The path a document key such as `privileges.far` addresses. -/
def fieldPath (key : String) : List String :=
  (splitDots key.toList).map String.mk

/-- A path component that names an array position: decimal digits without a leading zero. -/
def arrayIndex (k : String) : Option Nat :=
  let cs := k.toList
  if cs ≠ [] ∧ cs.all (fun c => decide ('0' ≤ c ∧ c ≤ '9')) = true
      ∧ (cs.head? ≠ some '0' ∨ cs.length = 1) then
    some (cs.foldl (fun n c => 10 * n + (c.toNat - 48)) 0)
  else none

/-- A privilege name that is one plain field name: not empty, without a dot, and not
starting with a dollar sign. -/
def PlainName (p : String) : Prop :=
  p.toList ≠ [] ∧ '.' ∉ p.toList ∧ p.toList.head? ≠ some '$'

instance (p : String) : Decidable (PlainName p) :=
  inferInstanceAs (Decidable (p.toList ≠ [] ∧ '.' ∉ p.toList ∧ p.toList.head? ≠ some '$'))

/-! ## Selectors -/

/-- The equality test of a query condition at the addressed value: equal to the
operand, or an array with an element equal to the operand. -/
def leafMatches (v q : Value) : Bool :=
  v.beq q ||
    (match v with
     | .arr items => items.any (fun e => e.beq q)
     | _ => false)

/-- Whether the value reached from `v` along `path` satisfies the equality condition
with operand `q`.  A missing field only equals `null`. -/
def pathMatches : List String → Value → Value → Bool
  | [], v, q => leafMatches v q
  | k :: ks, .doc fs, q =>
    match mapGet fs k with
    | some v => pathMatches ks v q
    | none => q.beq .null
  | k :: ks, .arr items, q =>
    (match arrayIndex k with
     | some i =>
       (match items.get? i with
        | some v => pathMatches ks v q
        | none => false)
     | none => false) ||
    items.any (fun e =>
      match e with
      | .doc fs =>
        (match mapGet fs k with
         | some v => pathMatches ks v q
         | none => false)
      | _ => false)
  | _ :: _, _, q => q.beq .null

/-- Whether document `d` satisfies every condition of `selector`. -/
def matchesSelector (selector : M) (d : M) : Bool :=
  selector.all (fun e => pathMatches (fieldPath e.1) (.doc d) e.2)

/-! ## Updates -/

/-- Array assignment at a position, padding with `null` up to it. -/
def setAt : List Value → Nat → Value → List Value
  | [], 0, v => [v]
  | [], i + 1, v => .null :: setAt [] i v
  | _ :: t, 0, v => v :: t
  | h :: t, i + 1, v => h :: setAt t i v

/-- The effect of `$set` of `new` at `path` below the current value (`none`: the field
is missing); `none` as result: the path cannot be created. -/
def setValue : List String → Value → Option Value → Option Value
  | [], new, _ => some new
  | k :: ks, new, none => (setValue ks new none).map (fun v => .doc [(k, v)])
  | k :: ks, new, some (.doc fs) =>
    (setValue ks new (mapGet fs k)).map (fun v => .doc (mapSet fs k v))
  | k :: ks, new, some (.arr items) =>
    match arrayIndex k with
    | some i => (setValue ks new (items.get? i)).map (fun v => .arr (setAt items i v))
    | none => none
  | _ :: _, _, some _ => none

/-- The `$set` of one field of a document. -/
def setField (d : M) (path : List String) (v : Value) : Option M :=
  match setValue path v (some (.doc d)) with
  | some (.doc d') => some d'
  | _ => none

/-- The effect of `$unset` at `path` below a value: the field is removed from its
document, an array element is set to `null`, a missing path changes nothing. -/
def unsetValue : List String → Value → Value
  | [], v => v
  | [k], .doc fs => .doc (mapDelete fs k)
  | [k], .arr items =>
    match arrayIndex k with
    | some i => if i < items.length then .arr (items.set i .null) else .arr items
    | none => .arr items
  | k :: k' :: ks, .doc fs =>
    match mapGet fs k with
    | some v => .doc (mapSet fs k (unsetValue (k' :: ks) v))
    | none => .doc fs
  | k :: k' :: ks, .arr items =>
    match arrayIndex k with
    | some i =>
      (match items.get? i with
       | some v => .arr (items.set i (unsetValue (k' :: ks) v))
       | none => .arr items)
    | none => .arr items
  | _ :: _, v => v

/-- The `$unset` of one field of a document. -/
def unsetField (d : M) (path : List String) : M :=
  match unsetValue path (.doc d) with
  | .doc d' => d'
  | _ => d

/-- A key that names an update operator. -/
def isOperatorKey (k : String) : Bool :=
  decide (k.toList.head? = some '$')

/-- A path component an update may address: not empty, not `$`-prefixed. -/
def validComponent (k : String) : Bool :=
  decide (k.toList ≠ []) && !isOperatorKey k

/-- The paths an operator update addresses, over all its operators. -/
def modifierPaths (update : M) : List (List String) :=
  update.flatMap (fun e =>
    match e.2 with
    | .doc fs => fs.map (fun f => fieldPath f.1)
    | _ => [])

/-- No two paths of the update collide: none is a prefix of another one. -/
def conflictFree (paths : List (List String)) : Bool :=
  decide (paths.Pairwise (fun p q => ¬ p <+: q ∧ ¬ q <+: p))

/-- Apply the fields of a `$set` one after another. -/
def applySet : M → M → Option M
  | [], d => some d
  | (k, v) :: fs, d =>
    match setField d (fieldPath k) v with
    | some d' => applySet fs d'
    | none => none

/-- Apply the fields of an `$unset` one after another. -/
def applyUnset : M → M → M
  | [], d => d
  | (k, _) :: fs, d => applyUnset fs (unsetField d (fieldPath k))

/-- Apply the operators of an update one after another. -/
def applyOperators : M → M → Option M
  | [], d => some d
  | (op, .doc fs) :: rest, d =>
    if op = "$set" then
      match applySet fs d with
      | some d' => applyOperators rest d'
      | none => none
    else if op = "$unset" then applyOperators rest (applyUnset fs d)
    else none
  | _ :: _, _ => none

/-- The document an update makes of `d`: an update with operator keys is applied field
by field after validation, an update without any replaces the document. -/
def applyUpdate (update d : M) : Option M :=
  if update.any (fun e => isOperatorKey e.1) then
    if update.all (fun e => isOperatorKey e.1)
        && (modifierPaths update).all (fun p => p.all validComponent)
        && conflictFree (modifierPaths update) then
      applyOperators update d
    else none
  else some update

/-- The document an upsert starts from when nothing matches: the equality fields of
the selector. -/
def selectorSeed (selector : M) : Option M :=
  applySet selector []

/-! ## The collection (labix.org/v2/mgo) -/

/-- The errors the engine sees: `mgo.ErrNotFound` ("not found") and a rejected write. -/
inductive Error where
  | notFound
  | writeFailed
  deriving DecidableEq, Repr

/-- Source `ACL` (models.go): the stored record. -/
structure ACL where
  Service : String
  Object : String
  Key : String
  User : String
  Privileges : M

/-- The Go zero value `ACL{}`. -/
def ACL.zero : ACL := ⟨"", "", "", "", []⟩

/-- The document of a record: bson marshals a struct under its lower-cased field names. -/
def ACL.toDoc (a : ACL) : M :=
  [("service", .str a.Service), ("object", .str a.Object), ("key", .str a.Key),
   ("user", .str a.User), ("privileges", .doc a.Privileges)]

/-- A string field of a document, the zero value when it is missing or no string. -/
def stringField (d : M) (k : String) : String :=
  match mapGet d k with
  | some (.str s) => s
  | _ => ""

/-- The record of a document: bson unmarshals field by field, leaving the zero value
where the document has nothing to offer. -/
def ACL.ofDoc (d : M) : ACL :=
  { Service := stringField d "service"
    Object := stringField d "object"
    Key := stringField d "key"
    User := stringField d "user"
    Privileges :=
      match mapGet d "privileges" with
      | some (.doc fs) => fs
      | _ => [] }

/-- The state of an `*mgo.Collection`: its records in natural order. -/
abbrev Collection := List ACL

/-- An `*mgo.Query`: the records a selector matched, in natural order. -/
abbrev Query := List ACL

/-- The call `c.Find(selector)`. -/
def Collection.Find (c : Collection) (selector : M) : Query :=
  c.filter (fun a => matchesSelector selector a.toDoc)

/-- The call `q.One(&result)`: the first match, or `ErrNotFound` with `result` untouched. -/
def Query.One (q : Query) (result : ACL) : ACL × Option Error :=
  match q with
  | [] => (result, some .notFound)
  | a :: _ => (a, none)

/-- The call `q.All(&result)`: every match. -/
def Query.All (q : Query) : Query × Option Error :=
  (q, none)

/-- The call `q.Distinct(key, &result)` into a `[]string`: the distinct values of a
string field over the matches. -/
def Query.Distinct (q : Query) (key : String) : List String × Option Error :=
  ((q.filterMap (fun a =>
      match mapGet a.toDoc key with
      | some (.str s) => some s
      | _ => none)).dedup, none)

/-- The document an upsert inserts when nothing matches. -/
def insertedDoc (selector update : M) : Option M :=
  (selectorSeed selector).bind (applyUpdate update)

/-- The records after an upsert: the first match is updated, or a document is added
at the end; `none` when the store rejects the update. -/
def upsertDocs (selector update : M) : Collection → Option Collection
  | [] => (insertedDoc selector update).map (fun d => [ACL.ofDoc d])
  | a :: rest =>
    if matchesSelector selector a.toDoc then
      (applyUpdate update a.toDoc).map (fun d => ACL.ofDoc d :: rest)
    else (upsertDocs selector update rest).map (fun rest' => a :: rest')

/-- The call `c.Upsert(selector, update)`: the collection afterwards and the error. -/
def Collection.Upsert (c : Collection) (selector update : M) : Collection × Option Error :=
  match upsertDocs selector update c with
  | some c' => (c', none)
  | none => (c, some .writeFailed)

/-! ## The engine (models.go) -/

/-- Source `ACL.Grant`: grants the given privileges on the ACL of the tuple. -/
def ACL.Grant (c : Collection) (service object key user : String)
    (privileges : List String) : Collection × Option Error :=
  let selector : M := [("service", .str service), ("object", .str object),
    ("key", .str key), ("user", .str user)]
  let update := copyMap selector
  let update := privileges.foldl
    (fun update privilege => mapSet update ("privileges." ++ privilege) (.str "allow")) update
  Collection.Upsert c selector [("$set", .doc update)]

/-- Source `ACL.Deny`: denies the given privileges on the ACL of the tuple. -/
def ACL.Deny (c : Collection) (service object key user : String)
    (privileges : List String) : Collection × Option Error :=
  let selector : M := [("service", .str service), ("object", .str object),
    ("key", .str key), ("user", .str user)]
  let update := copyMap selector
  let update := privileges.foldl
    (fun update privilege => mapSet update ("privileges." ++ privilege) (.str "deny")) update
  Collection.Upsert c selector [("$set", .doc update)]

/-- Source `ACL.Revoke`: revokes the given privileges from the ACL of the tuple. -/
def ACL.Revoke (c : Collection) (service object key user : String)
    (privileges : List String) : Collection × Option Error :=
  let selector : M := [("service", .str service), ("object", .str object),
    ("key", .str key), ("user", .str user)]
  let toRevoke : M := []
  let toRevoke := privileges.foldl
    (fun toRevoke privilege => mapSet toRevoke ("privileges." ++ privilege) (.str "")) toRevoke
  Collection.Upsert c selector [("$unset", .doc toRevoke)]

/-- Source `ACL.Set`: sets the privileges of the tuple to a whole new mapping. -/
def ACL.Set (c : Collection) (service object key user : String)
    (privileges : M) : Collection × Option Error :=
  let selector : M := [("service", .str service), ("object", .str object),
    ("key", .str key), ("user", .str user)]
  let update := copyMap selector
  let update := mapSet update "privileges" (.doc privileges)
  Collection.Upsert c selector update

/-- Source `ACL.Has`: `nil` (here `none`) when a record of the tuple with every listed
privilege allowed is found, `ErrNotFound` otherwise. -/
def ACL.Has (c : Collection) (service object key user : String)
    (privileges : List String) : Option Error :=
  let selector : M := [("service", .str service), ("object", .str object),
    ("key", .str key), ("user", .str user)]
  let selector := privileges.foldl
    (fun selector privilege => mapSet selector ("privileges." ++ privilege) (.str "allow"))
    selector
  let result := ACL.zero
  (Query.One (Collection.Find c selector) result).2

/-- Source `ACL.Get`: the record of the tuple. -/
def ACL.Get (c : Collection) (service object key user : String) : ACL × Option Error :=
  let selector : M := [("service", .str service), ("object", .str object),
    ("key", .str key), ("user", .str user)]
  let result := ACL.zero
  Query.One (Collection.Find c selector) result

/-- Source `ACL.Match`: the keys on which the user is allowed every listed privilege. -/
def ACL.Match (c : Collection) (service object user : String)
    (privileges : List String) : List String × Option Error :=
  let selector : M := [("service", .str service), ("object", .str object),
    ("user", .str user)]
  let selector := privileges.foldl
    (fun selector privilege => mapSet selector ("privileges." ++ privilege) (.str "allow"))
    selector
  Query.Distinct (Collection.Find c selector) "key"

/-- Source `ACL.ListServices`: the services of the collection. -/
def ACL.ListServices (c : Collection) : List String × Option Error :=
  Query.Distinct (Collection.Find c []) "service"

/-- Source `ACL.ListObjects`: the objects of a service. -/
def ACL.ListObjects (c : Collection) (service : String) : List String × Option Error :=
  Query.Distinct (Collection.Find c [("service", .str service)]) "object"

/-- Source `ACL.List`: the records of a service and object, narrowed by key and user
when these are not empty.  (It comes last of the engine: in an `ACL.` definition written
after it the name `List` would be read as this function.) -/
def ACL.List (c : Collection) (service object key user : String) : Query × Option Error :=
  let query : M := [("service", .str service), ("object", .str object)]
  let query := if key ≠ "" then mapSet query "key" (.str key) else query
  let query := if user ≠ "" then mapSet query "user" (.str user) else query
  Query.All (Collection.Find c query)

/-! ## Reading the collection -/

/-- Whether a record carries the tuple `(service, object, key, user)`. -/
def isTuple (service object key user : String) (a : ACL) : Bool :=
  decide (a.Service = service ∧ a.Object = object ∧ a.Key = key ∧ a.User = user)

/-- The record a collection holds for a tuple, when it holds one (the first in natural
order). -/
def recordOf (c : Collection) (service object key user : String) : Option ACL :=
  c.find? (isTuple service object key user)

/-- The records of a collection that carry the tuple. -/
def recordsOf (c : Collection) (service object key user : String) : List ACL :=
  c.filter (isTuple service object key user)

/-- The value a privilege name maps to is "allow" as far as a selector can tell: the
string itself, or an array that holds it. -/
def holdsAllow (v : Option Value) : Prop :=
  v = some (.str "allow") ∨ ∃ items, v = some (.arr items) ∧ Value.str "allow" ∈ items

/-- The collection after an upsert on a tuple, told by what happens to the record:
the first record of the tuple becomes `f` of it, or `a0` is added when there is none. -/
def upsertWith (service object key user : String) (f : ACL → ACL) (a0 : ACL) :
    Collection → Collection
  | [] => [a0]
  | a :: rest =>
    if isTuple service object key user a then f a :: rest
    else a :: upsertWith service object key user f a0 rest

/-- The privilege name a key `privileges.<name>` stands for. -/
def privName (key : String) : String :=
  String.mk (key.toList.drop 11)

/-- The privilege mapping after the `$set` fields `fs` (all of them privilege keys). -/
def setPrivs (privs : M) (fs : M) : M :=
  fs.foldl (fun m f => mapSet m (privName f.1) f.2) privs

/-- The privilege mapping after the `$unset` fields `fs` (all of them privilege keys). -/
def unsetPrivs (privs : M) (fs : M) : M :=
  fs.foldl (fun m f => mapDelete m (privName f.1)) privs

/-- The fields a loop `m["privileges."+privilege] = v` leaves in a fresh map. -/
def privFields (ps : List String) (v : Value) : M :=
  ps.foldl (fun m p => mapSet m ("privileges." ++ p) v) []

/-- The selector of a tuple, as every operation of the engine writes it. -/
def tupleSelector (service object key user : String) : M :=
  [("service", .str service), ("object", .str object), ("key", .str key), ("user", .str user)]

/-- At most one record of the collection carries the tuple. -/
def atMostOne (c : Collection) (service object key user : String) : Prop :=
  (recordsOf c service object key user).length ≤ 1

instance (c : Collection) (service object key user : String) :
    Decidable (atMostOne c service object key user) :=
  inferInstanceAs (Decidable ((recordsOf c service object key user).length ≤ 1))

/-- The shape of the keys an update of the engine addresses: a coordinate, or the key of
a privilege name without a dot. -/
def EngineKey (k : String) : Prop :=
  ('.' ∉ k.toList ∧ k ≠ "privileges") ∨ ∃ p : String, '.' ∉ p.toList ∧ k = "privileges." ++ p

/-- The keys an update of the engine addresses when the privilege names are plain: a
coordinate of the tuple, or the key of a plain privilege name. -/
def GoodKey (k : String) : Prop :=
  k ∈ ["service", "object", "key", "user"] ∨ ∃ p : String, PlainName p ∧ k = "privileges." ++ p

/-! ## The index, the update of Grant, and runs of the engine -/

/-- The Go `mgo.Index` as `EnsureIndex` fills it. -/
structure Index where
  Key : List String
  Unique : Bool
  DropDups : Bool
  Background : Bool
  Sparse : Bool

/-- Source `ACL.EnsureIndex`: the index the method asks the collection for. -/
def ACL.EnsureIndex : Index :=
  { Key := ["Service", "Object", "Key", "User"]
    Unique := true
    DropDups := false
    Background := false
    Sparse := false }

/-- The update document `ACL.Grant` builds: a copy of the selector that receives
`"privileges." + privilege` for every listed privilege. -/
def grantUpdate (service object key user : String) (privileges : List String) : M :=
  let selector : M := [("service", .str service), ("object", .str object),
    ("key", .str key), ("user", .str user)]
  let update := copyMap selector
  privileges.foldl
    (fun update privilege => mapSet update ("privileges." ++ privilege) (.str "allow")) update

/-- One call of a writing operation of the engine. -/
inductive Call where
  | grant (service object key user : String) (privileges : List String)
  | deny (service object key user : String) (privileges : List String)
  | revoke (service object key user : String) (privileges : List String)
  | set (service object key user : String) (privileges : M)

/-- The collection after a call (a failed call leaves it as it was). -/
def Call.run (call : Call) (c : Collection) : Collection :=
  match call with
  | .grant service object key user privileges =>
    (ACL.Grant c service object key user privileges).1
  | .deny service object key user privileges =>
    (ACL.Deny c service object key user privileges).1
  | .revoke service object key user privileges =>
    (ACL.Revoke c service object key user privileges).1
  | .set service object key user privileges =>
    (ACL.Set c service object key user privileges).1

/-- The collection after a sequence of calls, one after another. -/
def runCalls (calls : List Call) (c : Collection) : Collection :=
  calls.foldl (fun c call => call.run c) c

/-- A privilege value of the data model: "allow" or "deny". -/
def IsFlag (v : Value) : Prop :=
  v = .str "allow" ∨ v = .str "deny"

/-- A call that keeps privilege values within "allow" and "deny": Grant and Deny with
names without a dot, Set with a mapping of such values, any Revoke. -/
def Call.Flagged : Call → Prop
  | .grant _ _ _ _ privileges => ∀ p ∈ privileges, '.' ∉ p.toList
  | .deny _ _ _ _ privileges => ∀ p ∈ privileges, '.' ∉ p.toList
  | .revoke _ _ _ _ _ => True
  | .set _ _ _ _ privileges => ∀ e ∈ privileges, IsFlag e.2

/-- The scenario of the test suite, step 1: Grant of `faz`, `boo`, `baz` on the empty
collection. -/
def scenarioGrant : Collection :=
  (ACL.Grant [] "service1" "object1" "1" "john" ["faz", "boo", "baz"]).1

/-- The scenario, step 2: a further Grant of `far` and `foos`. -/
def scenarioGrantMore : Collection :=
  (ACL.Grant scenarioGrant "service1" "object1" "1" "john" ["far", "foos"]).1

/-- The scenario, step 3: a further Deny of `far`. -/
def scenarioDeny : Collection :=
  (ACL.Deny scenarioGrantMore "service1" "object1" "1" "john" ["far"]).1

/-- The scenario, step 4: a further Revoke of `far` and `faz`. -/
def scenarioRevoke : Collection :=
  (ACL.Revoke scenarioDeny "service1" "object1" "1" "john" ["far", "faz"]).1

/-- The record an update makes of a record (the record itself when the update is
rejected). -/
def updatedRecord (update : M) (a : ACL) : ACL :=
  match applyUpdate update a.toDoc with
  | some d => ACL.ofDoc d
  | none => a

/-- The record an upsert on a tuple inserts (a record without privileges stands in when
the insertion is rejected). -/
def insertedRecord (service object key user : String) (update : M) : ACL :=
  match insertedDoc (tupleSelector service object key user) update with
  | some d => ACL.ofDoc d
  | none => ⟨service, object, key, user, []⟩

/-- The privilege mapping after `$unset` of a path below `privileges`. -/
def unsetIn (privs : M) (path : List String) : M :=
  match unsetValue path (.doc privs) with
  | .doc privs' => privs'
  | _ => privs

/-! ## The handlers (handlers.go)

A handler is given what `getRequestData` hands it when the body parses: the collection,
the service and object of the URL, and the items of the body (a JSON array of objects).
It returns what it has sent on the response writer and the collection afterwards. -/

/-- What is written to a response: an error text of `http.Error`, or marshalled JSON. -/
inductive Payload where
  | text (msg : String)
  | json (v : Value)

/-- The state of an `http.ResponseWriter`: the status sent (`none`: no header written
yet), the content type set, and what was written to the body. -/
structure ResponseWriter where
  status : Option Nat
  contentType : Option String
  body : List Payload

/-- The response writer a handler starts with. -/
def ResponseWriter.fresh : ResponseWriter := ⟨none, none, []⟩

/-- The call `w.WriteHeader(code)`: the first status sent stands. -/
def ResponseWriter.WriteHeader (w : ResponseWriter) (code : Nat) : ResponseWriter :=
  match w.status with
  | none => { w with status := some code }
  | some _ => w

/-- The call `w.Write(data)`: status 200 is sent when none was before. -/
def ResponseWriter.Write (w : ResponseWriter) (data : Payload) : ResponseWriter :=
  let w := w.WriteHeader 200
  { w with body := w.body ++ [data] }

/-- The call `http.Error(w, msg, code)`. -/
def httpError (w : ResponseWriter) (msg : String) (code : Nat) : ResponseWriter :=
  let w := { w with contentType := some "text/plain; charset=utf-8" }
  let w := w.WriteHeader code
  { w with body := w.body ++ [Payload.text msg] }

/-- The text of an error, Go `err.Error()`. -/
def Error.message : Error → String
  | .notFound => "not found"
  | .writeFailed => "write failed"

/-- Source `interfaceSliceToStr` (util.go): the strings of a `[]interface{}`, `none`
(Go: `nil, false`) when an element is no string. -/
def interfaceSliceToStr : List Value → Option (List String)
  | [] => some []
  | .str s :: rest =>
    match interfaceSliceToStr rest with
    | some strs => some (s :: strs)
    | none => none
  | _ :: _ => none

/-- The result of `getItemData`: the response writer, and the four values returned. -/
structure ItemData where
  w : ResponseWriter
  values : M
  key : String
  user : String
  privileges : List String

/-- Source `getItemData`: the key, user and privileges of an item of the body; on a
missing or mistyped field an error is sent and empty values are returned. -/
def getItemData (w : ResponseWriter) (val : Value) (parsePrivilege parseKey : Bool) :
    ItemData :=
  match val with
  | .doc values =>
    let keyOk : Option String :=
      if parseKey then
        match mapGet values "key" with
        | some (.str key) => some key
        | _ => none
      else some ""
    match keyOk with
    | none => ⟨httpError w "Missing key from an item" 400, [], "", "", []⟩
    | some key =>
      match mapGet values "user" with
      | some (.str user) =>
        if !parsePrivilege then ⟨w, values, key, user, []⟩
        else
          match mapGet values "privileges" with
          | some (.arr p) =>
            match interfaceSliceToStr p with
            | some privileges => ⟨w, values, key, user, privileges⟩
            | none => ⟨httpError w "Missing privileges from an item" 400, [], "", "", []⟩
          | _ => ⟨httpError w "Missing privileges from an item" 400, [], "", "", []⟩
      | _ => ⟨httpError w "Missing user from an item" 400, [], "", "", []⟩
  | _ => ⟨httpError w "An error occurred getting body value data" 500, [], "", "", []⟩

/-- Source `getPrivilegeMap`: the privileges of an item when they are a map; `none`
(Go: `nil`) after an error was sent. -/
def getPrivilegeMap (w : ResponseWriter) (values : M) : ResponseWriter × Option M :=
  match mapGet values "privileges" with
  | some (.doc privileges) => (w, some privileges)
  | _ => (httpError w "Missing privileges from an item" 400, none)

/-- The loop of `grantPrivilegesHandler`, `denyPrivilegesHandler` and
`revokePrivilegesHandler` over the items of the body, with the engine operation `op`
and the text `msg` sent when it fails; after the last item status 204 is sent. -/
def privilegesLoop
    (op : Collection → String → String → String → String → List String →
      Collection × Option Error)
    (msg : String) (service object : String) :
    List M → ResponseWriter → Collection → ResponseWriter × Collection
  | [], w, c => (w.WriteHeader 204, c)
  | val :: rest, w, c =>
    let item := getItemData w (.doc val) true true
    if item.key = "" ∨ item.user = "" then (item.w, c)
    else
      match op c service object item.key item.user item.privileges with
      | (c', none) => privilegesLoop op msg service object rest item.w c'
      | (c', some _) => (httpError item.w msg 500, c')

/-- Source `grantPrivilegesHandler`. -/
def grantPrivilegesHandler (w : ResponseWriter) (c : Collection) (service object : String)
    (body : List M) : ResponseWriter × Collection :=
  privilegesLoop ACL.Grant "An error occurred granting privileges" service object body w c

/-- Source `denyPrivilegesHandler`. -/
def denyPrivilegesHandler (w : ResponseWriter) (c : Collection) (service object : String)
    (body : List M) : ResponseWriter × Collection :=
  privilegesLoop ACL.Deny "An error occurred granting privileges" service object body w c

/-- Source `revokePrivilegesHandler`. -/
def revokePrivilegesHandler (w : ResponseWriter) (c : Collection) (service object : String)
    (body : List M) : ResponseWriter × Collection :=
  privilegesLoop ACL.Revoke "An error occurred revoking privileges" service object body w c

/-- The loop of `setPrivilegesHandler` over the items of the body. -/
def setPrivilegesLoop (service object : String) :
    List M → ResponseWriter → Collection → ResponseWriter × Collection
  | [], w, c => (w.WriteHeader 204, c)
  | val :: rest, w, c =>
    let item := getItemData w (.doc val) false true
    if item.key = "" ∨ item.user = "" then (item.w, c)
    else
      match getPrivilegeMap item.w item.values with
      | (w', none) => (w', c)
      | (w', some privileges) =>
        match ACL.Set c service object item.key item.user privileges with
        | (c', none) => setPrivilegesLoop service object rest w' c'
        | (c', some _) => (httpError w' "An error occurred granting privileges" 500, c')

/-- Source `setPrivilegesHandler`. -/
def setPrivilegesHandler (w : ResponseWriter) (c : Collection) (service object : String)
    (body : List M) : ResponseWriter × Collection :=
  setPrivilegesLoop service object body w c

/-- The loop of `hasPrivilegesHandler`: the output items, or `none` when the handler
returns early. -/
def hasPrivilegesLoop (c : Collection) (service object : String) :
    List M → ResponseWriter → ResponseWriter × Option (List M)
  | [], w => (w, some [])
  | val :: rest, w =>
    let item := getItemData w (.doc val) true true
    if item.key = "" ∨ item.user = "" then (item.w, none)
    else
      let err := ACL.Has c service object item.key item.user item.privileges
      let verdict : Option String :=
        match err with
        | none => some "allow"
        | some e => if e.message ≠ "not found" then none else some "deny"
      match verdict with
      | none => (httpError item.w "An error occurred getting privileges" 500, none)
      | some privilege =>
        match hasPrivilegesLoop c service object rest item.w with
        | (w', some output) =>
          (w', some ([("key", .str item.key), ("user", .str item.user),
            ("privilege", .str privilege)] :: output))
        | (w', none) => (w', none)

/-- Source `hasPrivilegesHandler`: the output is marshalled and written once every item
has been looked up. -/
def hasPrivilegesHandler (w : ResponseWriter) (c : Collection) (service object : String)
    (body : List M) : ResponseWriter :=
  match hasPrivilegesLoop c service object body w with
  | (w', some output) =>
    ({ w' with contentType := some "application/json" }).Write
      (.json (.arr (output.map Value.doc)))
  | (w', none) => w'

/-- The loop of `getPrivilegesHandler`: the output items, or `none` when the handler
returns early. -/
def getPrivilegesLoop (c : Collection) (service object : String) :
    List M → ResponseWriter → ResponseWriter × Option (List M)
  | [], w => (w, some [])
  | val :: rest, w =>
    let item := getItemData w (.doc val) false true
    if item.key = "" ∨ item.user = "" then (item.w, none)
    else
      let got := ACL.Get c service object item.key item.user
      let failed : Bool :=
        match got.2 with
        | none => false
        | some e => decide (e.message ≠ "not found")
      if failed then (httpError item.w "An error occurred getting privileges" 500, none)
      else
        let privileges : M :=
          match got.2 with
          | none => got.1.Privileges
          | some _ => []
        match getPrivilegesLoop c service object rest item.w with
        | (w', some output) =>
          (w', some ([("key", .str item.key), ("user", .str item.user),
            ("privileges", .doc privileges)] :: output))
        | (w', none) => (w', none)

/-- Source `getPrivilegesHandler`. -/
def getPrivilegesHandler (w : ResponseWriter) (c : Collection) (service object : String)
    (body : List M) : ResponseWriter :=
  match getPrivilegesLoop c service object body w with
  | (w', some output) =>
    ({ w' with contentType := some "application/json" }).Write
      (.json (.arr (output.map Value.doc)))
  | (w', none) => w'

/-- An item that carries a string key, a string user and a list of string privileges. -/
def carriesStrings (item : M) : Prop :=
  (∃ key, mapGet item "key" = some (.str key)) ∧
  (∃ user, mapGet item "user" = some (.str user)) ∧
  (∃ p privileges, mapGet item "privileges" = some (.arr p) ∧
    interfaceSliceToStr p = some privileges)

/-- The key of an item. -/
def itemKey (item : M) : String := stringField item "key"

/-- The user of an item. -/
def itemUser (item : M) : String := stringField item "user"

/-- The privilege names of an item. -/
def itemPrivileges (item : M) : List String :=
  match mapGet item "privileges" with
  | some (.arr p) => (interfaceSliceToStr p).getD []
  | _ => []

/-- The collection after an engine operation on every item of a body in order, `none`
when one of the calls fails. -/
def applyItems
    (op : Collection → String → String → String → String → List String →
      Collection × Option Error)
    (service object : String) : List M → Collection → Option Collection
  | [], c => some c
  | item :: rest, c =>
    match op c service object (itemKey item) (itemUser item) (itemPrivileges item) with
    | (c', none) => applyItems op service object rest c'
    | (_, some _) => none

/-- The output item `hasPrivilegesHandler` owes to an item of the body: its key, its
user, and "allow" when Has succeeds, "deny" when it does not. -/
def hasOutput (c : Collection) (service object : String) (item : M) : M :=
  [("key", .str (itemKey item)), ("user", .str (itemUser item)),
   ("privilege", .str (if ACL.Has c service object (itemKey item) (itemUser item)
      (itemPrivileges item) = none then "allow" else "deny"))]

/-- An item of the body the handlers go on with: it carries a string key, a string user
and a list of string privileges, and neither key nor user is empty. -/
def usableItem (item : M) : Prop :=
  carriesStrings item ∧ itemKey item ≠ "" ∧ itemUser item ≠ ""

/-! ## Maps and paths -/

theorem Value.beq_str_iff (v : Value) (s : String) : v.beq (.str s) = true ↔ v = .str s := by
  cases v <;> simp [Value.beq]

theorem any_beq_str_iff (items : List Value) (s : String) :
    items.any (fun e => e.beq (.str s)) = true ↔ Value.str s ∈ items := by
  induction items with
  | nil => simp
  | cons h t ih =>
    simp only [List.any_cons, Bool.or_eq_true, ih, List.mem_cons, Value.beq_str_iff]
    constructor
    · rintro (h1 | h1)
      · exact Or.inl h1.symm
      · exact Or.inr h1
    · rintro (h1 | h1)
      · exact Or.inl h1.symm
      · exact Or.inr h1

theorem leafMatches_str_iff (v : Value) (s : String) :
    leafMatches v (.str s) = true ↔
      v = .str s ∨ ∃ items, v = .arr items ∧ Value.str s ∈ items := by
  cases v with
  | arr items =>
    simp only [leafMatches, Value.beq, Bool.false_or, any_beq_str_iff]
    simp
  | _ => simp [leafMatches, Value.beq]

theorem mem_mapDelete (m : M) (k : String) (e : String × Value) :
    e ∈ mapDelete m k ↔ e ∈ m ∧ e.1 ≠ k := by
  induction m with
  | nil => simp [mapDelete]
  | cons h t ih =>
    obtain ⟨k', v'⟩ := h
    by_cases hk : k' = k
    · subst hk
      simp only [mapDelete, if_true, ih, List.mem_cons]
      constructor
      · rintro ⟨h1, h2⟩; exact ⟨Or.inr h1, h2⟩
      · rintro ⟨h1 | h1, h2⟩
        · subst h1; exact absurd rfl h2
        · exact ⟨h1, h2⟩
    · simp only [mapDelete, if_neg hk, ih, List.mem_cons]
      constructor
      · rintro (h1 | ⟨h1, h2⟩)
        · subst h1; exact ⟨Or.inl rfl, hk⟩
        · exact ⟨Or.inr h1, h2⟩
      · rintro ⟨h1 | h1, h2⟩
        · exact Or.inl h1
        · exact Or.inr ⟨h1, h2⟩

theorem mem_mapSet (m : M) (k : String) (v : Value) (e : String × Value) :
    e ∈ mapSet m k v ↔ e = (k, v) ∨ (e ∈ m ∧ e.1 ≠ k) := by
  induction m with
  | nil => simp [mapSet]
  | cons h t ih =>
    obtain ⟨k', v'⟩ := h
    by_cases hk : k' = k
    · subst hk
      simp only [mapSet, if_true, List.mem_cons, mem_mapDelete]
      constructor
      · rintro (h1 | h1)
        · exact Or.inl h1
        · exact Or.inr ⟨Or.inr h1.1, h1.2⟩
      · rintro (h1 | ⟨h1 | h1, h2⟩)
        · exact Or.inl h1
        · subst h1; exact absurd rfl h2
        · exact Or.inr ⟨h1, h2⟩
    · simp only [mapSet, if_neg hk, List.mem_cons, ih]
      constructor
      · rintro (h1 | h1 | h1)
        · subst h1; exact Or.inr ⟨Or.inl rfl, hk⟩
        · exact Or.inl h1
        · exact Or.inr ⟨Or.inr h1.1, h1.2⟩
      · rintro (h1 | ⟨h1 | h1, h2⟩)
        · exact Or.inr (Or.inl h1)
        · exact Or.inl h1
        · exact Or.inr (Or.inr ⟨h1, h2⟩)

theorem mapGet_mapDelete (m : M) (k n : String) :
    mapGet (mapDelete m k) n = if n = k then none else mapGet m n := by
  induction m with
  | nil => simp [mapDelete, mapGet]
  | cons h t ih =>
    obtain ⟨k', v'⟩ := h
    by_cases hk : k' = k
    · subst hk
      by_cases hn : n = k'
      · subst hn; simp [mapDelete, mapGet, ih]
      · have : ¬ k' = n := fun h => hn h.symm
        simp [mapDelete, mapGet, ih, hn, this]
    · by_cases hn : n = k
      · subst hn; simp [mapDelete, mapGet, ih, hk]
      · simp [mapDelete, mapGet, ih, hk, hn]

theorem mapGet_mapSet (m : M) (k n : String) (v : Value) :
    mapGet (mapSet m k v) n = if n = k then some v else mapGet m n := by
  induction m with
  | nil =>
    by_cases hn : n = k
    · subst hn; simp [mapSet, mapGet]
    · have : ¬ k = n := fun h => hn h.symm
      simp [mapSet, mapGet, hn, this]
  | cons h t ih =>
    obtain ⟨k', v'⟩ := h
    by_cases hk : k' = k
    · subst hk
      by_cases hn : n = k'
      · subst hn; simp [mapSet, mapGet]
      · have : ¬ k' = n := fun h => hn h.symm
        simp [mapSet, mapGet, mapGet_mapDelete, hn, this]
    · by_cases hn : n = k
      · subst hn; simp [mapSet, mapGet, hk, ih]
      · simp [mapSet, mapGet, hk, hn, ih]

theorem mapDelete_of_absent (m : M) (k : String) (h : mapGet m k = none) :
    mapDelete m k = m := by
  induction m with
  | nil => rfl
  | cons hd t ih =>
    obtain ⟨k', v'⟩ := hd
    by_cases hk : k' = k
    · simp [mapGet, hk] at h
    · simp only [mapGet, if_neg hk] at h
      simp [mapDelete, hk, ih h]

theorem splitDots_nodot (cs : List Char) (h : '.' ∉ cs) : splitDots cs = [cs] := by
  induction cs with
  | nil => rfl
  | cons c t ih =>
    simp only [List.mem_cons, not_or] at h
    have hc : ¬ c = '.' := fun e => h.1 e.symm
    simp [splitDots, hc, ih h.2]

theorem splitDots_append_dot (pre rest : List Char) (h : '.' ∉ pre) :
    splitDots (pre ++ '.' :: rest) = pre :: splitDots rest := by
  induction pre with
  | nil => simp [splitDots]
  | cons c t ih =>
    simp only [List.mem_cons, not_or] at h
    have hc : ¬ c = '.' := fun e => h.1 e.symm
    simp [splitDots, hc, ih h.2]

theorem fieldPath_privileges (p : String) :
    fieldPath ("privileges." ++ p) = "privileges" :: fieldPath p := by
  have h : ("privileges." ++ p).toList = "privileges".toList ++ '.' :: p.toList := by
    simp [String.toList]
  unfold fieldPath
  rw [h, splitDots_append_dot _ _ (by decide)]
  rfl

theorem fieldPath_nodot (p : String) (h : '.' ∉ p.toList) : fieldPath p = [p] := by
  unfold fieldPath
  rw [splitDots_nodot _ h]
  rfl

/-! ## Selectors on records -/

theorem ACL.ofDoc_toDoc (a : ACL) : ACL.ofDoc a.toDoc = a := by
  cases a
  simp [ACL.ofDoc, ACL.toDoc, stringField, mapGet]

theorem matchesSelector_iff (selector d : M) :
    matchesSelector selector d = true ↔
      ∀ e ∈ selector, pathMatches (fieldPath e.1) (.doc d) e.2 = true := by
  simp [matchesSelector, List.all_eq_true]

theorem fieldPath_service : fieldPath "service" = ["service"] := by decide
theorem fieldPath_object : fieldPath "object" = ["object"] := by decide
theorem fieldPath_key : fieldPath "key" = ["key"] := by decide
theorem fieldPath_user : fieldPath "user" = ["user"] := by decide

theorem pathMatches_service (a : ACL) (s : String) :
    pathMatches ["service"] (.doc a.toDoc) (.str s) = true ↔ a.Service = s := by
  simp [pathMatches, ACL.toDoc, mapGet, leafMatches, Value.beq]

theorem pathMatches_object (a : ACL) (s : String) :
    pathMatches ["object"] (.doc a.toDoc) (.str s) = true ↔ a.Object = s := by
  simp [pathMatches, ACL.toDoc, mapGet, leafMatches, Value.beq]

theorem pathMatches_key (a : ACL) (s : String) :
    pathMatches ["key"] (.doc a.toDoc) (.str s) = true ↔ a.Key = s := by
  simp [pathMatches, ACL.toDoc, mapGet, leafMatches, Value.beq]

theorem pathMatches_user (a : ACL) (s : String) :
    pathMatches ["user"] (.doc a.toDoc) (.str s) = true ↔ a.User = s := by
  simp [pathMatches, ACL.toDoc, mapGet, leafMatches, Value.beq]

theorem pathMatches_privileges (a : ACL) (path : List String) (q : Value) :
    pathMatches ("privileges" :: path) (.doc a.toDoc) q
      = pathMatches path (.doc a.Privileges) q := by
  simp [pathMatches, ACL.toDoc, mapGet]

theorem priv_ne_service (p : String) : ¬ "service" = "privileges." ++ p := by
  intro h
  have := congrArg String.toList h
  simp [String.toList] at this

theorem priv_ne_object (p : String) : ¬ "object" = "privileges." ++ p := by
  intro h
  have := congrArg String.toList h
  simp [String.toList] at this

theorem priv_ne_key (p : String) : ¬ "key" = "privileges." ++ p := by
  intro h
  have := congrArg String.toList h
  simp [String.toList] at this

theorem priv_ne_user (p : String) : ¬ "user" = "privileges." ++ p := by
  intro h
  have := congrArg String.toList h
  simp [String.toList] at this

theorem privName_priv (p : String) : privName ("privileges." ++ p) = p := by
  simp [privName, String.toList]

theorem mem_privFoldl (v : Value) (ps : List String) (base : M) (e : String × Value) :
    e ∈ ps.foldl (fun m p => mapSet m ("privileges." ++ p) v) base ↔
      (∃ p ∈ ps, e = ("privileges." ++ p, v)) ∨
      (e ∈ base ∧ ∀ p ∈ ps, e.1 ≠ "privileges." ++ p) := by
  induction ps generalizing base with
  | nil => simp
  | cons p t ih =>
    simp only [List.foldl_cons, ih, mem_mapSet, List.mem_cons]
    constructor
    · rintro (⟨q, hq, he⟩ | ⟨he | ⟨he, hne⟩, hall⟩)
      · exact Or.inl ⟨q, Or.inr hq, he⟩
      · exact Or.inl ⟨p, Or.inl rfl, he⟩
      · refine Or.inr ⟨he, ?_⟩
        intro q hq
        rcases hq with hq | hq
        · subst hq; exact hne
        · exact hall q hq
    · rintro (⟨q, hq | hq, he⟩ | ⟨he, hall⟩)
      · subst hq
        by_cases hex : ∃ r ∈ t, "privileges." ++ r = "privileges." ++ q
        · obtain ⟨r, hr, hrq⟩ := hex
          exact Or.inl ⟨r, hr, by rw [he, hrq]⟩
        · refine Or.inr ⟨Or.inl he, ?_⟩
          intro r hr hre
          apply hex
          refine ⟨r, hr, ?_⟩
          rw [← hre, he]
      · exact Or.inl ⟨q, hq, he⟩
      · exact Or.inr ⟨Or.inr ⟨he, hall p (Or.inl rfl)⟩, fun q hq => hall q (Or.inr hq)⟩

theorem matches_privFoldl (base : M)
    (hbase : ∀ e ∈ base, ∀ p : String, e.1 ≠ "privileges." ++ p)
    (ps : List String) (d : M) :
    matchesSelector
        (ps.foldl (fun m p => mapSet m ("privileges." ++ p) (.str "allow")) base) d = true ↔
      matchesSelector base d = true ∧
        ∀ p ∈ ps, pathMatches ("privileges" :: fieldPath p) (.doc d) (.str "allow") = true := by
  simp only [matchesSelector_iff, mem_privFoldl]
  constructor
  · intro h
    refine ⟨fun e he => h e (Or.inr ⟨he, fun p _ => hbase e he p⟩), ?_⟩
    intro p hp
    have := h ("privileges." ++ p, .str "allow") (Or.inl ⟨p, hp, rfl⟩)
    simpa [fieldPath_privileges] using this
  · rintro ⟨h1, h2⟩ e (⟨p, hp, he⟩ | ⟨he, _⟩)
    · subst he
      simpa [fieldPath_privileges] using h2 p hp
    · exact h1 e he

theorem matches_tuple (service object key user : String) (a : ACL) :
    matchesSelector [("service", .str service), ("object", .str object),
      ("key", .str key), ("user", .str user)] a.toDoc = isTuple service object key user a := by
  rw [Bool.eq_iff_iff, matchesSelector_iff]
  simp [isTuple, fieldPath_service, fieldPath_object, fieldPath_key, fieldPath_user,
    pathMatches_service, pathMatches_object, pathMatches_key, pathMatches_user]

theorem one_filter (p : ACL → Bool) (c : Collection) (z : ACL) :
    Query.One (c.filter p) z =
      match c.find? p with
      | some a => (a, none)
      | none => (z, some .notFound) := by
  induction c with
  | nil => rfl
  | cons a t ih =>
    by_cases h : p a = true
    · simp [List.filter, List.find?, h, Query.One]
    · simp only [Bool.not_eq_true] at h
      simp [List.filter, List.find?, h, ih]

theorem get_eq (c : Collection) (service object key user : String) :
    ACL.Get c service object key user =
      match recordOf c service object key user with
      | some a => (a, none)
      | none => (ACL.zero, some .notFound) := by
  unfold ACL.Get Collection.Find recordOf
  simp only [matches_tuple]
  exact one_filter _ _ _

theorem has_eq_none_iff (c : Collection) (service object key user : String)
    (ps : List String) :
    ACL.Has c service object key user ps = none ↔
      ∃ a ∈ recordsOf c service object key user,
        ∀ p ∈ ps, pathMatches (fieldPath p) (.doc a.Privileges) (.str "allow") = true := by
  unfold ACL.Has Collection.Find recordsOf
  simp only [one_filter]
  have hbase : ∀ e ∈ ([("service", .str service), ("object", .str object),
      ("key", .str key), ("user", .str user)] : M),
      ∀ p : String, e.1 ≠ "privileges." ++ p := by
    intro e he p
    simp only [List.mem_cons, List.mem_singleton, List.not_mem_nil, or_false] at he
    rcases he with he | he | he | he <;> subst he
    · exact priv_ne_service p
    · exact priv_ne_object p
    · exact priv_ne_key p
    · exact priv_ne_user p
  constructor
  · intro h
    split at h
    · rename_i a ha
      have hm := List.find?_some ha
      have hmem := List.mem_of_find?_eq_some ha
      rw [matches_privFoldl _ hbase, matches_tuple] at hm
      refine ⟨a, List.mem_filter.mpr ⟨hmem, hm.1⟩, ?_⟩
      intro p hp
      have := hm.2 p hp
      rwa [pathMatches_privileges] at this
    · simp at h
  · rintro ⟨a, ha, hp⟩
    obtain ⟨hmem, ht⟩ := List.mem_filter.mp ha
    split
    · rfl
    · rename_i hnone
      rw [List.find?_eq_none] at hnone
      exfalso
      apply hnone a hmem
      rw [matches_privFoldl _ hbase, matches_tuple]
      refine ⟨ht, ?_⟩
      intro p hp'
      rw [pathMatches_privileges]
      exact hp p hp'

theorem has_none_or_notFound (c : Collection) (service object key user : String)
    (ps : List String) :
    ACL.Has c service object key user ps = none ∨
      ACL.Has c service object key user ps = some .notFound := by
  unfold ACL.Has
  simp only [Collection.Find, one_filter]
  split
  · exact Or.inl rfl
  · exact Or.inr rfl

theorem pathMatches_nodot (privs : M) (p : String) (h : '.' ∉ p.toList) :
    pathMatches (fieldPath p) (.doc privs) (.str "allow") = true ↔ holdsAllow (mapGet privs p) := by
  rw [fieldPath_nodot p h]
  unfold holdsAllow
  cases hg : mapGet privs p with
  | none => simp [pathMatches, hg, Value.beq]
  | some v => simp [pathMatches, hg, leafMatches_str_iff]

/-! ## Update documents -/

theorem copyMap_tuple (service object key user : String) :
    copyMap [("service", .str service), ("object", .str object),
      ("key", .str key), ("user", .str user)] = tupleSelector service object key user := by
  simp [copyMap, mapSet, tupleSelector]

theorem mapSet_append_left (base X : M) (k : String) (v : Value)
    (h : ∀ e ∈ base, e.1 ≠ k) : mapSet (base ++ X) k v = base ++ mapSet X k v := by
  induction base with
  | nil => rfl
  | cons hd t ih =>
    obtain ⟨k', v'⟩ := hd
    have hk : ¬ k' = k := h (k', v') (List.mem_cons_self _ _)
    have ht : ∀ e ∈ t, e.1 ≠ k := fun e he => h e (List.mem_cons_of_mem _ he)
    simp [mapSet, hk, ih ht]

theorem privFoldl_append (v : Value) (ps : List String) (base X : M)
    (h : ∀ e ∈ base, ∀ p : String, e.1 ≠ "privileges." ++ p) :
    ps.foldl (fun m p => mapSet m ("privileges." ++ p) v) (base ++ X) =
      base ++ ps.foldl (fun m p => mapSet m ("privileges." ++ p) v) X := by
  induction ps generalizing X with
  | nil => rfl
  | cons p t ih =>
    simp only [List.foldl_cons]
    rw [mapSet_append_left base X _ v (fun e he => h e he p), ih]

theorem tupleSelector_keys (service object key user : String) :
    ∀ e ∈ tupleSelector service object key user, ∀ p : String, e.1 ≠ "privileges." ++ p := by
  intro e he p
  simp only [tupleSelector, List.mem_cons, List.mem_singleton, List.not_mem_nil, or_false] at he
  rcases he with he | he | he | he <;> subst he
  · exact priv_ne_service p
  · exact priv_ne_object p
  · exact priv_ne_key p
  · exact priv_ne_user p

theorem privFoldl_tuple (service object key user : String) (v : Value) (ps : List String) :
    ps.foldl (fun m p => mapSet m ("privileges." ++ p) v) (tupleSelector service object key user)
      = tupleSelector service object key user ++ privFields ps v := by
  have := privFoldl_append v ps (tupleSelector service object key user) []
    (tupleSelector_keys service object key user)
  simpa [privFields] using this

theorem mem_privFields (ps : List String) (v : Value) (e : String × Value) :
    e ∈ privFields ps v ↔ ∃ p ∈ ps, e = ("privileges." ++ p, v) := by
  unfold privFields
  rw [mem_privFoldl]
  simp

theorem mem_mapKeys_mapDelete (m : M) (k x : String) :
    x ∈ mapKeys (mapDelete m k) → x ∈ mapKeys m ∧ x ≠ k := by
  simp only [mapKeys, List.mem_map]
  rintro ⟨e, he, rfl⟩
  rw [mem_mapDelete] at he
  exact ⟨⟨e, he.1, rfl⟩, he.2⟩

theorem nodup_mapDelete (m : M) (k : String) (h : (mapKeys m).Nodup) :
    (mapKeys (mapDelete m k)).Nodup := by
  induction m with
  | nil => simp [mapDelete, mapKeys]
  | cons hd t ih =>
    obtain ⟨k', v'⟩ := hd
    simp only [mapKeys, List.map_cons, List.nodup_cons] at h
    by_cases hk : k' = k
    · simp only [mapDelete, if_pos hk]
      exact ih h.2
    · simp only [mapDelete, if_neg hk, mapKeys, List.map_cons, List.nodup_cons]
      refine ⟨?_, ih h.2⟩
      intro hmem
      exact h.1 (mem_mapKeys_mapDelete t k k' hmem).1

theorem nodup_mapSet (m : M) (k : String) (v : Value) (h : (mapKeys m).Nodup) :
    (mapKeys (mapSet m k v)).Nodup := by
  induction m with
  | nil => simp [mapSet, mapKeys]
  | cons hd t ih =>
    obtain ⟨k', v'⟩ := hd
    simp only [mapKeys, List.map_cons, List.nodup_cons] at h
    by_cases hk : k' = k
    · simp only [mapSet, if_pos hk, mapKeys, List.map_cons, List.nodup_cons]
      refine ⟨?_, nodup_mapDelete t k h.2⟩
      intro hmem
      exact (mem_mapKeys_mapDelete t k k hmem).2 rfl
    · simp only [mapSet, if_neg hk, mapKeys, List.map_cons, List.nodup_cons]
      refine ⟨?_, ih h.2⟩
      intro hmem
      simp only [List.mem_map] at hmem
      obtain ⟨e, he, hek⟩ := hmem
      rw [mem_mapSet] at he
      rcases he with he | he
      · subst he; exact hk hek.symm
      · exact h.1 (List.mem_map.mpr ⟨e, he.1, hek⟩)

theorem nodup_privFoldl (v : Value) (ps : List String) (base : M)
    (h : (mapKeys base).Nodup) :
    (mapKeys (ps.foldl (fun m p => mapSet m ("privileges." ++ p) v) base)).Nodup := by
  induction ps generalizing base with
  | nil => exact h
  | cons p t ih => exact ih _ (nodup_mapSet base _ v h)

theorem engineKey_no_collision (k1 k2 : String) (h1 : EngineKey k1) (h2 : EngineKey k2)
    (hne : k1 ≠ k2) : ¬ fieldPath k1 <+: fieldPath k2 := by
  rcases h1 with ⟨d1, n1⟩ | ⟨p, dp, rfl⟩ <;> rcases h2 with ⟨d2, n2⟩ | ⟨q, dq, rfl⟩
  · rw [fieldPath_nodot _ d1, fieldPath_nodot _ d2]
    simpa using hne
  · rw [fieldPath_nodot _ d1, fieldPath_privileges, fieldPath_nodot _ dq]
    simp [List.cons_prefix_cons, n1]
  · rw [fieldPath_nodot _ d2, fieldPath_privileges, fieldPath_nodot _ dp]
    simp [List.cons_prefix_cons]
  · rw [fieldPath_privileges, fieldPath_privileges, fieldPath_nodot _ dp, fieldPath_nodot _ dq]
    simp only [List.cons_prefix_cons, true_and, List.nil_prefix, and_true]
    intro hpq
    exact hne (by rw [hpq])

theorem conflictFree_engineKeys (keys : List String) (hnd : keys.Nodup)
    (hform : ∀ k ∈ keys, EngineKey k) : conflictFree (keys.map fieldPath) = true := by
  unfold conflictFree
  rw [decide_eq_true_iff, List.pairwise_map]
  refine List.Pairwise.imp_of_mem ?_ hnd
  intro k1 k2 h1 h2 hne
  exact ⟨engineKey_no_collision k1 k2 (hform k1 h1) (hform k2 h2) hne,
    engineKey_no_collision k2 k1 (hform k2 h2) (hform k1 h1) (fun h => hne h.symm)⟩

theorem GoodKey.engineKey {k : String} (h : GoodKey k) : EngineKey k := by
  rcases h with h | ⟨p, hp, rfl⟩
  · left
    simp only [List.mem_cons, List.mem_singleton, List.not_mem_nil, or_false] at h
    rcases h with h | h | h | h <;> subst h <;> decide
  · exact Or.inr ⟨p, hp.2.1, rfl⟩

theorem GoodKey.valid {k : String} (h : GoodKey k) :
    (fieldPath k).all validComponent = true := by
  rcases h with h | ⟨p, hp, rfl⟩
  · simp only [List.mem_cons, List.mem_singleton, List.not_mem_nil, or_false] at h
    rcases h with h | h | h | h <;> subst h <;> decide
  · rw [fieldPath_privileges, fieldPath_nodot _ hp.2.1]
    have h1 : validComponent "privileges" = true := by decide
    have h2 : validComponent p = true := by
      have ha := hp.1
      have hb := hp.2.2
      simp only [String.toList] at ha hb
      simp [validComponent, isOperatorKey, ha, hb]
    simp [h1, h2]

theorem modifierPaths_single (op : String) (fs : M) :
    modifierPaths [(op, .doc fs)] = (mapKeys fs).map fieldPath := by
  simp [modifierPaths, mapKeys]

theorem applyUpdate_set (fs d : M) (hnd : (mapKeys fs).Nodup)
    (hgood : ∀ k ∈ mapKeys fs, GoodKey k) :
    applyUpdate [("$set", .doc fs)] d = applySet fs d := by
  have hop : isOperatorKey "$set" = true := by decide
  have hvalid : ((mapKeys fs).map fieldPath).all (fun p => p.all validComponent) = true := by
    rw [List.all_eq_true]
    intro p hp
    obtain ⟨k, hk, rfl⟩ := List.mem_map.mp hp
    exact (hgood k hk).valid
  have hcf := conflictFree_engineKeys (mapKeys fs) hnd (fun k hk => (hgood k hk).engineKey)
  unfold applyUpdate
  simp only [List.any_cons, List.any_nil, List.all_cons, List.all_nil, hop, Bool.or_false,
    Bool.and_true, if_true, modifierPaths_single, hvalid, hcf, Bool.and_self]
  simp only [applyOperators, if_true]
  cases applySet fs d <;> rfl

theorem applyUpdate_unset (fs d : M) (hnd : (mapKeys fs).Nodup)
    (hgood : ∀ k ∈ mapKeys fs, GoodKey k) :
    applyUpdate [("$unset", .doc fs)] d = some (applyUnset fs d) := by
  have hop : isOperatorKey "$unset" = true := by decide
  have hvalid : ((mapKeys fs).map fieldPath).all (fun p => p.all validComponent) = true := by
    rw [List.all_eq_true]
    intro p hp
    obtain ⟨k, hk, rfl⟩ := List.mem_map.mp hp
    exact (hgood k hk).valid
  have hcf := conflictFree_engineKeys (mapKeys fs) hnd (fun k hk => (hgood k hk).engineKey)
  have hne : ¬ "$unset" = "$set" := by decide
  unfold applyUpdate
  simp only [List.any_cons, List.any_nil, List.all_cons, List.all_nil, hop, Bool.or_false,
    Bool.and_true, if_true, modifierPaths_single, hvalid, hcf, Bool.and_self]
  simp only [applyOperators, if_neg hne, if_true]

theorem applySet_append (A B d : M) :
    applySet (A ++ B) d = (applySet A d).bind (applySet B) := by
  induction A generalizing d with
  | nil => rfl
  | cons hd t ih =>
    obtain ⟨k, v⟩ := hd
    simp only [List.cons_append, applySet]
    cases setField d (fieldPath k) v with
    | none => rfl
    | some d' => exact ih d'

theorem setField_priv (a : ACL) (p : String) (h : '.' ∉ p.toList) (v : Value) :
    setField a.toDoc (fieldPath ("privileges." ++ p)) v
      = some ({ a with Privileges := mapSet a.Privileges p v } : ACL).toDoc := by
  rw [fieldPath_privileges, fieldPath_nodot _ h]
  simp [setField, setValue, ACL.toDoc, mapGet, mapSet, mapDelete]

theorem applySet_privs (X : M) (a : ACL)
    (hX : ∀ e ∈ X, ∃ p : String, '.' ∉ p.toList ∧ e.1 = "privileges." ++ p) :
    applySet X a.toDoc
      = some ({ a with Privileges := setPrivs a.Privileges X } : ACL).toDoc := by
  induction X generalizing a with
  | nil => rfl
  | cons hd t ih =>
    obtain ⟨k, v⟩ := hd
    obtain ⟨p, hp, hk⟩ := hX (k, v) (List.mem_cons_self _ _)
    simp only at hk
    subst hk
    simp only [applySet, setField_priv a p hp v]
    rw [ih _ (fun e he => hX e (List.mem_cons_of_mem _ he))]
    simp [setPrivs, privName_priv]

theorem applySet_tuple (service object key user : String) (a : ACL)
    (h : isTuple service object key user a = true) :
    applySet (tupleSelector service object key user) a.toDoc = some a.toDoc := by
  simp only [isTuple, decide_eq_true_eq] at h
  obtain ⟨h1, h2, h3, h4⟩ := h
  subst h1 h2 h3 h4
  simp [applySet, tupleSelector, setField, setValue, fieldPath_service, fieldPath_object,
    fieldPath_key, fieldPath_user, ACL.toDoc, mapSet, mapDelete]

theorem selectorSeed_tuple (service object key user : String) :
    selectorSeed (tupleSelector service object key user)
      = some (tupleSelector service object key user) := by
  simp [selectorSeed, applySet, tupleSelector, setField, setValue, fieldPath_service,
    fieldPath_object, fieldPath_key, fieldPath_user, mapSet, mapGet]

theorem applySet_tuple_seed (service object key user : String) :
    applySet (tupleSelector service object key user) (tupleSelector service object key user)
      = some (tupleSelector service object key user) := by
  simp [applySet, tupleSelector, setField, setValue, fieldPath_service,
    fieldPath_object, fieldPath_key, fieldPath_user, mapSet, mapGet, mapDelete]

theorem applySet_privs_seed (service object key user : String) (X : M)
    (hX : ∀ e ∈ X, ∃ p : String, '.' ∉ p.toList ∧ e.1 = "privileges." ++ p) :
    ∃ D, applySet X (tupleSelector service object key user) = some D ∧
      ACL.ofDoc D = ⟨service, object, key, user, setPrivs [] X⟩ := by
  cases X with
  | nil =>
    refine ⟨_, rfl, ?_⟩
    simp [ACL.ofDoc, tupleSelector, stringField, mapGet, setPrivs]
  | cons hd t =>
    obtain ⟨k, v⟩ := hd
    obtain ⟨p, hp, hk⟩ := hX (k, v) (List.mem_cons_self _ _)
    simp only at hk
    subst hk
    have h1 : setField (tupleSelector service object key user)
        (fieldPath ("privileges." ++ p)) v
        = some (ACL.toDoc ⟨service, object, key, user, [(p, v)]⟩) := by
      rw [fieldPath_privileges, fieldPath_nodot _ hp]
      simp [setField, setValue, tupleSelector, ACL.toDoc, mapGet, mapSet]
    refine ⟨_, ?_, ACL.ofDoc_toDoc _⟩
    simp only [applySet, h1]
    rw [applySet_privs _ _ (fun e he => hX e (List.mem_cons_of_mem _ he))]
    simp [setPrivs, privName_priv, mapSet]

theorem unsetField_priv (a : ACL) (p : String) (h : '.' ∉ p.toList) :
    unsetField a.toDoc (fieldPath ("privileges." ++ p))
      = ({ a with Privileges := mapDelete a.Privileges p } : ACL).toDoc := by
  rw [fieldPath_privileges, fieldPath_nodot _ h]
  simp [unsetField, unsetValue, ACL.toDoc, mapGet, mapSet, mapDelete]

theorem applyUnset_privs (X : M) (a : ACL)
    (hX : ∀ e ∈ X, ∃ p : String, '.' ∉ p.toList ∧ e.1 = "privileges." ++ p) :
    applyUnset X a.toDoc = ({ a with Privileges := unsetPrivs a.Privileges X } : ACL).toDoc := by
  induction X generalizing a with
  | nil => rfl
  | cons hd t ih =>
    obtain ⟨k, v⟩ := hd
    obtain ⟨p, hp, hk⟩ := hX (k, v) (List.mem_cons_self _ _)
    simp only at hk
    subst hk
    simp only [applyUnset, unsetField_priv a p hp]
    rw [ih _ (fun e he => hX e (List.mem_cons_of_mem _ he))]
    simp [unsetPrivs, privName_priv]

theorem applyUnset_privs_seed (service object key user : String) (X : M)
    (hX : ∀ e ∈ X, ∃ p : String, '.' ∉ p.toList ∧ e.1 = "privileges." ++ p) :
    applyUnset X (tupleSelector service object key user)
      = tupleSelector service object key user := by
  induction X with
  | nil => rfl
  | cons hd t ih =>
    obtain ⟨k, v⟩ := hd
    obtain ⟨p, hp, hk⟩ := hX (k, v) (List.mem_cons_self _ _)
    simp only at hk
    subst hk
    have h1 : unsetField (tupleSelector service object key user)
        (fieldPath ("privileges." ++ p)) = tupleSelector service object key user := by
      rw [fieldPath_privileges, fieldPath_nodot _ hp]
      simp [unsetField, unsetValue, tupleSelector, mapGet]
    simp only [applyUnset, h1]
    exact ih (fun e he => hX e (List.mem_cons_of_mem _ he))

theorem matches_tupleSelector (service object key user : String) (a : ACL) :
    matchesSelector (tupleSelector service object key user) a.toDoc
      = isTuple service object key user a :=
  matches_tuple service object key user a

theorem upsertDocs_eq (service object key user : String) (U : M) (f : ACL → ACL) (a0 : ACL)
    (hf : ∀ a, isTuple service object key user a = true →
      ∃ D, applyUpdate U a.toDoc = some D ∧ ACL.ofDoc D = f a)
    (h0 : ∃ D, insertedDoc (tupleSelector service object key user) U = some D ∧
      ACL.ofDoc D = a0)
    (c : Collection) :
    upsertDocs (tupleSelector service object key user) U c
      = some (upsertWith service object key user f a0 c) := by
  induction c with
  | nil =>
    obtain ⟨D, hD, hDa⟩ := h0
    simp [upsertDocs, upsertWith, hD, hDa]
  | cons a t ih =>
    by_cases ht : isTuple service object key user a = true
    · obtain ⟨D, hD, hDa⟩ := hf a ht
      simp [upsertDocs, upsertWith, matches_tupleSelector, ht, hD, hDa]
    · simp only [Bool.not_eq_true] at ht
      simp [upsertDocs, upsertWith, matches_tupleSelector, ht, ih]

theorem mapKeys_tupleSelector (service object key user : String) :
    mapKeys (tupleSelector service object key user) = ["service", "object", "key", "user"] := rfl

theorem goodKey_setFields (service object key user : String) (ps : List String) (v : Value)
    (hps : ∀ p ∈ ps, PlainName p) :
    ∀ k ∈ mapKeys (tupleSelector service object key user ++ privFields ps v), GoodKey k := by
  intro k hk
  simp only [mapKeys, List.map_append, List.mem_append, List.mem_map] at hk
  rcases hk with ⟨e, he, rfl⟩ | ⟨e, he, rfl⟩
  · left
    have : e.1 ∈ mapKeys (tupleSelector service object key user) :=
      List.mem_map.mpr ⟨e, he, rfl⟩
    simpa [mapKeys_tupleSelector] using this
  · obtain ⟨p, hp, rfl⟩ := (mem_privFields ps v e).mp he
    exact Or.inr ⟨p, hps p hp, rfl⟩

theorem goodKey_privFields (ps : List String) (v : Value) (hps : ∀ p ∈ ps, PlainName p) :
    ∀ k ∈ mapKeys (privFields ps v), GoodKey k := by
  intro k hk
  simp only [mapKeys, List.mem_map] at hk
  obtain ⟨e, he, rfl⟩ := hk
  obtain ⟨p, hp, rfl⟩ := (mem_privFields ps v e).mp he
  exact Or.inr ⟨p, hps p hp, rfl⟩

theorem privFields_shape (ps : List String) (v : Value) (hps : ∀ p ∈ ps, PlainName p) :
    ∀ e ∈ privFields ps v, ∃ p : String, '.' ∉ p.toList ∧ e.1 = "privileges." ++ p := by
  intro e he
  obtain ⟨p, hp, rfl⟩ := (mem_privFields ps v e).mp he
  exact ⟨p, (hps p hp).2.1, rfl⟩

theorem nodup_setFields (service object key user : String) (ps : List String) (v : Value) :
    (mapKeys (tupleSelector service object key user ++ privFields ps v)).Nodup := by
  rw [← privFoldl_tuple]
  apply nodup_privFoldl
  rw [mapKeys_tupleSelector]
  decide

theorem nodup_privFields (ps : List String) (v : Value) :
    (mapKeys (privFields ps v)).Nodup := by
  unfold privFields
  apply nodup_privFoldl
  simp [mapKeys]

/-- The `$set` upsert of Grant and Deny on plain names: the record of the tuple gets the
listed names set to `v`, or a record with just these names is added. -/
theorem upsert_set (c : Collection) (service object key user : String) (ps : List String)
    (v : Value) (hps : ∀ p ∈ ps, PlainName p) :
    Collection.Upsert c (tupleSelector service object key user)
        [("$set", .doc (ps.foldl (fun m p => mapSet m ("privileges." ++ p) v)
          (tupleSelector service object key user)))]
      = (upsertWith service object key user
          (fun a => { a with Privileges := setPrivs a.Privileges (privFields ps v) })
          ⟨service, object, key, user, setPrivs [] (privFields ps v)⟩ c, none) := by
  rw [privFoldl_tuple]
  have hU : ∀ d, applyUpdate
      [("$set", .doc (tupleSelector service object key user ++ privFields ps v))] d
      = (applySet (tupleSelector service object key user) d).bind
          (applySet (privFields ps v)) := by
    intro d
    rw [applyUpdate_set _ _ (nodup_setFields service object key user ps v)
      (goodKey_setFields service object key user ps v hps), applySet_append]
  have h := upsertDocs_eq service object key user
    [("$set", .doc (tupleSelector service object key user ++ privFields ps v))]
    (fun a => { a with Privileges := setPrivs a.Privileges (privFields ps v) })
    ⟨service, object, key, user, setPrivs [] (privFields ps v)⟩
    (by
      intro a ha
      refine ⟨_, ?_, ACL.ofDoc_toDoc _⟩
      rw [hU, applySet_tuple service object key user a ha]
      exact applySet_privs _ _ (privFields_shape ps v hps))
    (by
      obtain ⟨D, hD, hDa⟩ := applySet_privs_seed service object key user (privFields ps v)
        (privFields_shape ps v hps)
      refine ⟨D, ?_, hDa⟩
      unfold insertedDoc
      rw [selectorSeed_tuple]
      simp only [Option.bind]
      rw [hU, applySet_tuple_seed]
      exact hD)
    c
  unfold Collection.Upsert
  rw [h]

/-- The `$unset` upsert of Revoke on plain names: the record of the tuple loses the
listed names, or a record without privileges is added. -/
theorem upsert_unset (c : Collection) (service object key user : String) (ps : List String)
    (v : Value) (hps : ∀ p ∈ ps, PlainName p) :
    Collection.Upsert c (tupleSelector service object key user)
        [("$unset", .doc (privFields ps v))]
      = (upsertWith service object key user
          (fun a => { a with Privileges := unsetPrivs a.Privileges (privFields ps v) })
          ⟨service, object, key, user, []⟩ c, none) := by
  have hU : ∀ d, applyUpdate [("$unset", .doc (privFields ps v))] d
      = some (applyUnset (privFields ps v) d) := by
    intro d
    exact applyUpdate_unset _ _ (nodup_privFields ps v) (goodKey_privFields ps v hps)
  have h := upsertDocs_eq service object key user [("$unset", .doc (privFields ps v))]
    (fun a => { a with Privileges := unsetPrivs a.Privileges (privFields ps v) })
    ⟨service, object, key, user, []⟩
    (by
      intro a _
      refine ⟨_, ?_, ACL.ofDoc_toDoc _⟩
      rw [hU, applyUnset_privs _ _ (privFields_shape ps v hps)])
    (by
      refine ⟨tupleSelector service object key user, ?_, ?_⟩
      · unfold insertedDoc
        rw [selectorSeed_tuple]
        simp only [Option.bind]
        rw [hU, applyUnset_privs_seed _ _ _ _ _ (privFields_shape ps v hps)]
      · simp [ACL.ofDoc, tupleSelector, stringField, mapGet])
    c
  unfold Collection.Upsert
  rw [h]

/-- The replacement upsert of Set: the record of the tuple is replaced, or added. -/
theorem upsert_replace (c : Collection) (service object key user : String) (m : M) :
    Collection.Upsert c (tupleSelector service object key user)
        (mapSet (tupleSelector service object key user) "privileges" (.doc m))
      = (upsertWith service object key user
          (fun _ => ⟨service, object, key, user, m⟩)
          ⟨service, object, key, user, m⟩ c, none) := by
  have hdoc : mapSet (tupleSelector service object key user) "privileges" (.doc m)
      = ACL.toDoc ⟨service, object, key, user, m⟩ := by
    simp [mapSet, tupleSelector, ACL.toDoc]
  have hU : ∀ d, applyUpdate (ACL.toDoc ⟨service, object, key, user, m⟩) d
      = some (ACL.toDoc ⟨service, object, key, user, m⟩) := by
    intro d
    have : (ACL.toDoc ⟨service, object, key, user, m⟩).any (fun e => isOperatorKey e.1)
        = false := by
      simp only [ACL.toDoc, List.any_cons, List.any_nil]
      decide
    simp [applyUpdate, this]
  rw [hdoc]
  have h := upsertDocs_eq service object key user (ACL.toDoc ⟨service, object, key, user, m⟩)
    (fun _ => ⟨service, object, key, user, m⟩) ⟨service, object, key, user, m⟩
    (by
      intro a _
      exact ⟨_, hU _, ACL.ofDoc_toDoc _⟩)
    (by
      refine ⟨_, ?_, ACL.ofDoc_toDoc _⟩
      unfold insertedDoc
      rw [selectorSeed_tuple]
      simp only [Option.bind]
      exact hU _)
    c
  unfold Collection.Upsert
  rw [h]

/-! ## Privilege mappings after an update -/

theorem mapGet_setPrivs_not_mem (X : M) (P : M) (n : String)
    (h : ∀ e ∈ X, privName e.1 ≠ n) : mapGet (setPrivs P X) n = mapGet P n := by
  induction X generalizing P with
  | nil => rfl
  | cons e t ih =>
    have he : ¬ n = privName e.1 := fun hn => h e (List.mem_cons_self _ _) hn.symm
    have := ih (mapSet P (privName e.1) e.2) (fun e' he' => h e' (List.mem_cons_of_mem _ he'))
    simp only [setPrivs, List.foldl_cons] at this ⊢
    rw [this, mapGet_mapSet, if_neg he]

theorem mapGet_setPrivs_mem (X : M) (P : M) (n : String) (v : Value)
    (hv : ∀ e ∈ X, e.2 = v) (h : ∃ e ∈ X, privName e.1 = n) :
    mapGet (setPrivs P X) n = some v := by
  induction X generalizing P with
  | nil => simp at h
  | cons e t ih =>
    by_cases h' : ∃ e' ∈ t, privName e'.1 = n
    · have := ih (mapSet P (privName e.1) e.2)
        (fun e' he' => hv e' (List.mem_cons_of_mem _ he')) h'
      simpa [setPrivs] using this
    · have hne : ∀ e' ∈ t, privName e'.1 ≠ n := fun e' he' hn => h' ⟨e', he', hn⟩
      obtain ⟨e0, he0, hn0⟩ := h
      rcases List.mem_cons.mp he0 with rfl | he0
      · have := mapGet_setPrivs_not_mem t (mapSet P (privName e0.1) e0.2) n hne
        simp only [setPrivs, List.foldl_cons] at this ⊢
        rw [this, mapGet_mapSet, if_pos hn0.symm, hv e0 (List.mem_cons_self _ _)]
      · exact absurd hn0 (hne e0 he0)

theorem mapGet_unsetPrivs_not_mem (X : M) (P : M) (n : String)
    (h : ∀ e ∈ X, privName e.1 ≠ n) : mapGet (unsetPrivs P X) n = mapGet P n := by
  induction X generalizing P with
  | nil => rfl
  | cons e t ih =>
    have he : ¬ n = privName e.1 := fun hn => h e (List.mem_cons_self _ _) hn.symm
    have := ih (mapDelete P (privName e.1)) (fun e' he' => h e' (List.mem_cons_of_mem _ he'))
    simp only [unsetPrivs, List.foldl_cons] at this ⊢
    rw [this, mapGet_mapDelete, if_neg he]

theorem mapGet_unsetPrivs_mem (X : M) (P : M) (n : String)
    (h : ∃ e ∈ X, privName e.1 = n) : mapGet (unsetPrivs P X) n = none := by
  induction X generalizing P with
  | nil => simp at h
  | cons e t ih =>
    by_cases h' : ∃ e' ∈ t, privName e'.1 = n
    · have := ih (mapDelete P (privName e.1)) h'
      simpa [unsetPrivs] using this
    · have hne : ∀ e' ∈ t, privName e'.1 ≠ n := fun e' he' hn => h' ⟨e', he', hn⟩
      obtain ⟨e0, he0, hn0⟩ := h
      rcases List.mem_cons.mp he0 with rfl | he0
      · have := mapGet_unsetPrivs_not_mem t (mapDelete P (privName e0.1)) n hne
        simp only [unsetPrivs, List.foldl_cons] at this ⊢
        rw [this, mapGet_mapDelete, if_pos hn0.symm]
      · exact absurd hn0 (hne e0 he0)

theorem unsetPrivs_of_absent (X : M) (P : M)
    (h : ∀ e ∈ X, mapGet P (privName e.1) = none) : unsetPrivs P X = P := by
  induction X with
  | nil => rfl
  | cons e t ih =>
    have h1 := mapDelete_of_absent P _ (h e (List.mem_cons_self _ _))
    have h2 := ih (fun e' he' => h e' (List.mem_cons_of_mem _ he'))
    simp only [unsetPrivs, List.foldl_cons] at h2 ⊢
    rw [h1, h2]

theorem privName_mem_privFields (ps : List String) (v : Value) (n : String) :
    (∃ e ∈ privFields ps v, privName e.1 = n) ↔ n ∈ ps := by
  constructor
  · rintro ⟨e, he, hn⟩
    obtain ⟨p, hp, rfl⟩ := (mem_privFields ps v e).mp he
    rw [privName_priv] at hn
    exact hn ▸ hp
  · intro hn
    exact ⟨("privileges." ++ n, v), (mem_privFields ps v _).mpr ⟨n, hn, rfl⟩, privName_priv n⟩

theorem mapGet_granted (P : M) (ps : List String) (v : Value) (n : String) :
    mapGet (setPrivs P (privFields ps v)) n = if n ∈ ps then some v else mapGet P n := by
  by_cases hn : n ∈ ps
  · rw [if_pos hn]
    apply mapGet_setPrivs_mem
    · intro e he
      obtain ⟨p, _, rfl⟩ := (mem_privFields ps v e).mp he
      rfl
    · exact (privName_mem_privFields ps v n).mpr hn
  · rw [if_neg hn]
    apply mapGet_setPrivs_not_mem
    intro e he hne
    exact hn ((privName_mem_privFields ps v n).mp ⟨e, he, hne⟩)

theorem mapGet_revoked (P : M) (ps : List String) (v : Value) (n : String) :
    mapGet (unsetPrivs P (privFields ps v)) n = if n ∈ ps then none else mapGet P n := by
  by_cases hn : n ∈ ps
  · rw [if_pos hn]
    exact mapGet_unsetPrivs_mem _ _ _ ((privName_mem_privFields ps v n).mpr hn)
  · rw [if_neg hn]
    apply mapGet_unsetPrivs_not_mem
    intro e he hne
    exact hn ((privName_mem_privFields ps v n).mp ⟨e, he, hne⟩)

theorem revoked_of_absent (P : M) (ps : List String) (v : Value)
    (h : ∀ p ∈ ps, mapGet P p = none) : unsetPrivs P (privFields ps v) = P := by
  apply unsetPrivs_of_absent
  intro e he
  obtain ⟨p, hp, rfl⟩ := (mem_privFields ps v e).mp he
  rw [privName_priv]
  exact h p hp

theorem granted_single (P : M) (n : String) (v : Value) :
    setPrivs P (privFields [n] v) = mapSet P n v := by
  simp [setPrivs, privFields, mapSet, privName_priv]

/-! ## The collection after an upsert -/

theorem recordsOf_upsertWith (service object key user : String) (f : ACL → ACL) (a0 : ACL)
    (hf : ∀ a, isTuple service object key user a = true →
      isTuple service object key user (f a) = true)
    (h0 : isTuple service object key user a0 = true) (c : Collection) :
    recordsOf (upsertWith service object key user f a0 c) service object key user =
      match recordsOf c service object key user with
      | [] => [a0]
      | a :: rest => f a :: rest := by
  induction c with
  | nil => simp [recordsOf, upsertWith, h0]
  | cons a t ih =>
    by_cases ht : isTuple service object key user a = true
    · simp [recordsOf, upsertWith, ht, hf a ht]
    · simp only [Bool.not_eq_true] at ht
      simp only [recordsOf] at ih
      simp [recordsOf, upsertWith, ht, ih]

theorem others_upsertWith (service object key user : String) (f : ACL → ACL) (a0 : ACL)
    (hf : ∀ a, isTuple service object key user a = true →
      isTuple service object key user (f a) = true)
    (h0 : isTuple service object key user a0 = true) (c : Collection) :
    (upsertWith service object key user f a0 c).filter
        (fun a => !isTuple service object key user a)
      = c.filter (fun a => !isTuple service object key user a) := by
  induction c with
  | nil => simp [upsertWith, h0]
  | cons a t ih =>
    by_cases ht : isTuple service object key user a = true
    · simp [upsertWith, ht, hf a ht]
    · simp only [Bool.not_eq_true] at ht
      simp [upsertWith, ht, ih]

theorem recordOf_eq_head (c : Collection) (service object key user : String) :
    recordOf c service object key user = (recordsOf c service object key user).head? := by
  unfold recordOf recordsOf
  induction c with
  | nil => rfl
  | cons a t ih =>
    by_cases ht : isTuple service object key user a = true
    · simp [List.find?_cons, List.filter_cons, ht]
    · simp only [Bool.not_eq_true] at ht
      simp only [List.find?_cons, List.filter_cons, ht]
      exact ih

theorem upsertWith_absent (service object key user : String) (f : ACL → ACL) (a0 : ACL)
    (c : Collection) (h : recordsOf c service object key user = []) :
    upsertWith service object key user f a0 c = c ++ [a0] := by
  induction c with
  | nil => rfl
  | cons a t ih =>
    by_cases ht : isTuple service object key user a = true
    · simp [recordsOf, List.filter, ht] at h
    · simp only [Bool.not_eq_true] at ht
      have h' : recordsOf t service object key user = [] := by
        simpa [recordsOf, List.filter, ht] using h
      simp [upsertWith, ht, ih h']

/-! ## The engine on plain names -/

theorem grant_eq (c : Collection) (service object key user : String) (ps : List String)
    (hps : ∀ p ∈ ps, PlainName p) :
    ACL.Grant c service object key user ps
      = (upsertWith service object key user
          (fun a => { a with Privileges := setPrivs a.Privileges (privFields ps (.str "allow")) })
          ⟨service, object, key, user, setPrivs [] (privFields ps (.str "allow"))⟩ c, none) := by
  unfold ACL.Grant
  simp only [copyMap_tuple]
  exact upsert_set c service object key user ps (.str "allow") hps

theorem deny_eq (c : Collection) (service object key user : String) (ps : List String)
    (hps : ∀ p ∈ ps, PlainName p) :
    ACL.Deny c service object key user ps
      = (upsertWith service object key user
          (fun a => { a with Privileges := setPrivs a.Privileges (privFields ps (.str "deny")) })
          ⟨service, object, key, user, setPrivs [] (privFields ps (.str "deny"))⟩ c, none) := by
  unfold ACL.Deny
  simp only [copyMap_tuple]
  exact upsert_set c service object key user ps (.str "deny") hps

theorem revoke_eq (c : Collection) (service object key user : String) (ps : List String)
    (hps : ∀ p ∈ ps, PlainName p) :
    ACL.Revoke c service object key user ps
      = (upsertWith service object key user
          (fun a => { a with Privileges := unsetPrivs a.Privileges (privFields ps (.str "")) })
          ⟨service, object, key, user, []⟩ c, none) := by
  unfold ACL.Revoke
  exact upsert_unset c service object key user ps (.str "") hps

theorem set_eq (c : Collection) (service object key user : String) (m : M) :
    ACL.Set c service object key user m
      = (upsertWith service object key user
          (fun _ => ⟨service, object, key, user, m⟩)
          ⟨service, object, key, user, m⟩ c, none) := by
  unfold ACL.Set
  simp only [copyMap_tuple]
  exact upsert_replace c service object key user m

theorem isTuple_iff (service object key user : String) (a : ACL) :
    isTuple service object key user a = true ↔
      a.Service = service ∧ a.Object = object ∧ a.Key = key ∧ a.User = user := by
  simp [isTuple]

theorem isTuple_with (service object key user : String) (a : ACL) (P : M)
    (h : isTuple service object key user a = true) :
    isTuple service object key user { a with Privileges := P } = true := by
  simpa [isTuple] using h

theorem isTuple_mk (service object key user : String) (P : M) :
    isTuple service object key user ⟨service, object, key, user, P⟩ = true := by
  simp [isTuple]

theorem mapGet_mem (P : M) (n : String) (v : Value) (h : mapGet P n = some v) : (n, v) ∈ P := by
  induction P with
  | nil => simp [mapGet] at h
  | cons hd t ih =>
    obtain ⟨k', v'⟩ := hd
    by_cases hk : k' = n
    · simp only [mapGet, if_pos hk, Option.some.injEq] at h
      subst hk h
      exact List.mem_cons_self _ _
    · simp only [mapGet, if_neg hk] at h
      exact List.mem_cons_of_mem _ (ih h)

theorem mem_recordsOf (c : Collection) (service object key user : String) (a : ACL) :
    a ∈ recordsOf c service object key user ↔
      a ∈ c ∧ a.Service = service ∧ a.Object = object ∧ a.Key = key ∧ a.User = user := by
  simp [recordsOf, List.mem_filter, isTuple]

/-- C1 (amended): for privilege names without a dot, Has succeeds exactly when the
collection holds a record of the tuple in which every listed name maps to "allow" or
to an array holding "allow" (so, where no privilege value is an array, exactly when
every listed name maps to "allow"); in every other case it reports not found; and for
the empty list it succeeds exactly when a record of the tuple exists. -/
theorem has_iff_allowed (c : Collection) (service object key user : String)
    (ps : List String) (hps : ∀ p ∈ ps, '.' ∉ p.toList) :
    (ACL.Has c service object key user ps = none ↔
      ∃ a ∈ c, a.Service = service ∧ a.Object = object ∧ a.Key = key ∧ a.User = user ∧
        ∀ p ∈ ps, holdsAllow (mapGet a.Privileges p)) ∧
    ((∀ a ∈ c, ∀ e ∈ a.Privileges, ∀ items, e.2 ≠ .arr items) →
      (ACL.Has c service object key user ps = none ↔
        ∃ a ∈ c, a.Service = service ∧ a.Object = object ∧ a.Key = key ∧ a.User = user ∧
          ∀ p ∈ ps, mapGet a.Privileges p = some (.str "allow"))) ∧
    (ACL.Has c service object key user ps ≠ none →
      ACL.Has c service object key user ps = some .notFound) ∧
    (ACL.Has c service object key user [] = none ↔
      ∃ a ∈ c, a.Service = service ∧ a.Object = object ∧ a.Key = key ∧ a.User = user) := by
  have main : ACL.Has c service object key user ps = none ↔
      ∃ a ∈ c, a.Service = service ∧ a.Object = object ∧ a.Key = key ∧ a.User = user ∧
        ∀ p ∈ ps, holdsAllow (mapGet a.Privileges p) := by
    rw [has_eq_none_iff]
    constructor
    · rintro ⟨a, ha, hp⟩
      obtain ⟨hmem, h1, h2, h3, h4⟩ := (mem_recordsOf _ _ _ _ _ _).mp ha
      exact ⟨a, hmem, h1, h2, h3, h4,
        fun p hpp => (pathMatches_nodot _ p (hps p hpp)).mp (hp p hpp)⟩
    · rintro ⟨a, hmem, h1, h2, h3, h4, hp⟩
      exact ⟨a, (mem_recordsOf _ _ _ _ _ _).mpr ⟨hmem, h1, h2, h3, h4⟩,
        fun p hpp => (pathMatches_nodot _ p (hps p hpp)).mpr (hp p hpp)⟩
  refine ⟨main, ?_, ?_, ?_⟩
  · intro hstr
    rw [main]
    constructor
    · rintro ⟨a, hmem, h1, h2, h3, h4, hp⟩
      refine ⟨a, hmem, h1, h2, h3, h4, ?_⟩
      intro p hpp
      rcases hp p hpp with h | ⟨items, h, _⟩
      · exact h
      · exact absurd rfl (hstr a hmem _ (mapGet_mem _ _ _ h) items)
    · rintro ⟨a, hmem, h1, h2, h3, h4, hp⟩
      exact ⟨a, hmem, h1, h2, h3, h4, fun p hpp => Or.inl (hp p hpp)⟩
  · intro h
    rcases has_none_or_notFound c service object key user ps with h' | h'
    · exact absurd h' h
    · exact h'
  · rw [has_eq_none_iff]
    constructor
    · rintro ⟨a, ha, _⟩
      obtain ⟨hmem, h1, h2, h3, h4⟩ := (mem_recordsOf _ _ _ _ _ _).mp ha
      exact ⟨a, hmem, h1, h2, h3, h4⟩
    · rintro ⟨a, hmem, h1, h2, h3, h4⟩
      exact ⟨a, (mem_recordsOf _ _ _ _ _ _).mpr ⟨hmem, h1, h2, h3, h4⟩, by simp⟩

/-- C1 witness: on a record with `far` and `fal` allowed, Has on both succeeds. -/
theorem has_iff_allowed_witness :
    (∀ p ∈ ["far", "fal"], '.' ∉ p.toList) ∧
    (ACL.Has [⟨"service1", "object1", "1", "john",
        [("far", .str "allow"), ("fal", .str "allow"), ("faz", .str "deny")]⟩]
        "service1" "object1" "1" "john" ["far", "fal"] = none ↔
      ∃ a ∈ ([⟨"service1", "object1", "1", "john",
        [("far", .str "allow"), ("fal", .str "allow"), ("faz", .str "deny")]⟩] : Collection),
        a.Service = "service1" ∧ a.Object = "object1" ∧ a.Key = "1" ∧ a.User = "john" ∧
        ∀ p ∈ ["far", "fal"], holdsAllow (mapGet a.Privileges p)) :=
  ⟨by decide, (has_iff_allowed _ "service1" "object1" "1" "john" ["far", "fal"] (by decide)).1⟩

/-- C1 as stated fails.  Set stores the mapping `{far: ["allow"]}` as it is given, and
Has of `far` succeeds on that record, the array holding "allow".  Grant of `a.b` stores
`{a: {b: "allow"}}`, and Has of `a.b` succeeds on that record.  In neither record does
the listed name map to "allow". -/
theorem has_iff_counterexample :
    ((ACL.Set [] "s" "o" "k" "u" [("far", .arr [.str "allow"])]).1
        = [⟨"s", "o", "k", "u", [("far", .arr [.str "allow"])]⟩] ∧
      ACL.Has [⟨"s", "o", "k", "u", [("far", .arr [.str "allow"])]⟩] "s" "o" "k" "u" ["far"]
        = none ∧
      ¬ ∃ a ∈ ([⟨"s", "o", "k", "u", [("far", .arr [.str "allow"])]⟩] : Collection),
        a.Service = "s" ∧ a.Object = "o" ∧ a.Key = "k" ∧ a.User = "u" ∧
        ∀ p ∈ ["far"], mapGet a.Privileges p = some (.str "allow")) ∧
    ((ACL.Grant [] "s" "o" "k" "u" ["a.b"]).1
        = [⟨"s", "o", "k", "u", [("a", .doc [("b", .str "allow")])]⟩] ∧
      ACL.Has [⟨"s", "o", "k", "u", [("a", .doc [("b", .str "allow")])]⟩] "s" "o" "k" "u" ["a.b"]
        = none ∧
      ¬ ∃ a ∈ ([⟨"s", "o", "k", "u", [("a", .doc [("b", .str "allow")])]⟩] : Collection),
        a.Service = "s" ∧ a.Object = "o" ∧ a.Key = "k" ∧ a.User = "u" ∧
        ∀ p ∈ ["a.b"], mapGet a.Privileges p = some (.str "allow")) := by
  refine ⟨⟨rfl, by decide, ?_⟩, ⟨rfl, by decide, ?_⟩⟩
  · simp [mapGet]
  · simp [mapGet]

theorem recordsOf_coords (c : Collection) (service object key user : String) (a : ACL)
    (rest : List ACL) (h : recordsOf c service object key user = a :: rest) :
    a.Service = service ∧ a.Object = object ∧ a.Key = key ∧ a.User = user := by
  have : a ∈ recordsOf c service object key user := by rw [h]; exact List.mem_cons_self _ _
  exact ((mem_recordsOf _ _ _ _ _ _).mp this).2

/-- The records of the tuple after an upsert that rewrites the privilege mapping with
`g`. -/
theorem recordsOf_after (c : Collection) (service object key user : String) (g : M → M) :
    recordsOf (upsertWith service object key user
        (fun a => { a with Privileges := g a.Privileges })
        ⟨service, object, key, user, g []⟩ c) service object key user =
      match recordsOf c service object key user with
      | [] => [⟨service, object, key, user, g []⟩]
      | a :: rest => ⟨service, object, key, user, g a.Privileges⟩ :: rest := by
  rw [recordsOf_upsertWith _ _ _ _ _ _ (fun a ha => isTuple_with _ _ _ _ a _ ha)
    (isTuple_mk _ _ _ _ _)]
  cases h : recordsOf c service object key user with
  | nil => rfl
  | cons a rest =>
    obtain ⟨h1, h2, h3, h4⟩ := recordsOf_coords c service object key user a rest h
    subst h1 h2 h3 h4
    rfl

theorem get_privileges (c : Collection) (service object key user : String) :
    (ACL.Get c service object key user).1.Privileges =
      match recordsOf c service object key user with
      | [] => []
      | a :: _ => a.Privileges := by
  rw [get_eq, recordOf_eq_head]
  cases recordsOf c service object key user <;> rfl

/-- Get after an upsert that rewrites the privilege mapping with `g`: the record of the
tuple, with `g` of the mapping Get showed before. -/
theorem get_after (c : Collection) (service object key user : String) (g : M → M) :
    ACL.Get (upsertWith service object key user
        (fun a => { a with Privileges := g a.Privileges })
        ⟨service, object, key, user, g []⟩ c) service object key user =
      (⟨service, object, key, user, g (ACL.Get c service object key user).1.Privileges⟩,
        none) := by
  rw [get_privileges, get_eq, recordOf_eq_head, recordsOf_after]
  cases recordsOf c service object key user <;> rfl

theorem recordsOf_after_unique (c : Collection) (service object key user : String)
    (g : M → M) (hu : atMostOne c service object key user) :
    recordsOf (upsertWith service object key user
        (fun a => { a with Privileges := g a.Privileges })
        ⟨service, object, key, user, g []⟩ c) service object key user =
      [⟨service, object, key, user, g (ACL.Get c service object key user).1.Privileges⟩] := by
  rw [recordsOf_after, get_privileges]
  unfold atMostOne at hu
  cases h : recordsOf c service object key user with
  | nil => rfl
  | cons a rest =>
    rw [h] at hu
    cases rest with
    | nil => rfl
    | cons b t => simp at hu

theorem others_after (c : Collection) (service object key user : String) (g : M → M) :
    (upsertWith service object key user
        (fun a => { a with Privileges := g a.Privileges })
        ⟨service, object, key, user, g []⟩ c).filter
        (fun a => !isTuple service object key user a)
      = c.filter (fun a => !isTuple service object key user a) :=
  others_upsertWith _ _ _ _ _ _ (fun a ha => isTuple_with _ _ _ _ a _ ha)
    (isTuple_mk _ _ _ _ _) c

theorem get_mem_recordsOf (c : Collection) (service object key user : String) (a : ACL)
    (h : ACL.Get c service object key user = (a, none)) :
    a ∈ recordsOf c service object key user := by
  rw [get_eq, recordOf_eq_head] at h
  cases hr : recordsOf c service object key user with
  | nil => rw [hr] at h; simp at h
  | cons b rest =>
    rw [hr] at h
    simp at h
    subst h
    exact List.mem_cons_self _ _

/-- Has on one record list: when the tuple has exactly the record `x`, Has on dot-free
names looks at `x` alone. -/
theorem has_single (c : Collection) (service object key user : String) (x : ACL)
    (hx : recordsOf c service object key user = [x]) (ps : List String)
    (hps : ∀ p ∈ ps, '.' ∉ p.toList) :
    ACL.Has c service object key user ps = none ↔
      ∀ p ∈ ps, holdsAllow (mapGet x.Privileges p) := by
  rw [has_eq_none_iff, hx]
  constructor
  · rintro ⟨a, ha, hp⟩ p hpp
    simp only [List.mem_singleton] at ha
    subst ha
    exact (pathMatches_nodot _ p (hps p hpp)).mp (hp p hpp)
  · intro h
    exact ⟨x, List.mem_singleton.mpr rfl,
      fun p hpp => (pathMatches_nodot _ p (hps p hpp)).mpr (h p hpp)⟩

theorem holdsAllow_allow : holdsAllow (some (.str "allow")) := Or.inl rfl

theorem not_holdsAllow_deny : ¬ holdsAllow (some (.str "deny")) := by
  rintro (h | ⟨items, h, _⟩)
  · simp at h
  · simp at h

theorem not_holdsAllow_none : ¬ holdsAllow none := by
  rintro (h | ⟨items, h, _⟩)
  · simp at h
  · simp at h

theorem unsetPrivs_nil (X : M) : unsetPrivs [] X = [] := by
  induction X with
  | nil => rfl
  | cons e t ih =>
    simp only [unsetPrivs, List.foldl_cons, mapDelete] at ih ⊢
    exact ih

/-- C2 (amended): for plain privilege names (not empty, no dot, no leading dollar sign),
Grant reports no error and Has with the same tuple and names then succeeds, whether or
not a record of the tuple existed before. -/
theorem grant_then_has (c : Collection) (service object key user : String)
    (ps : List String) (hps : ∀ p ∈ ps, PlainName p) :
    (ACL.Grant c service object key user ps).2 = none ∧
    ACL.Has (ACL.Grant c service object key user ps).1 service object key user ps = none := by
  rw [grant_eq c service object key user ps hps]
  refine ⟨rfl, ?_⟩
  simp only
  rw [has_eq_none_iff]
  have hg := get_after c service object key user
    (fun P => setPrivs P (privFields ps (.str "allow")))
  refine ⟨_, get_mem_recordsOf _ _ _ _ _ _ hg, ?_⟩
  intro p hp
  rw [pathMatches_nodot _ p (hps p hp).2.1]
  simp only [mapGet_granted, if_pos hp]
  exact holdsAllow_allow

/-- C2 witness: granting `faz`, `boo` and `baz` on the empty collection. -/
theorem grant_then_has_witness :
    (∀ p ∈ ["faz", "boo", "baz"], PlainName p) ∧
    ACL.Has (ACL.Grant [] "service1" "object1" "1" "john" ["faz", "boo", "baz"]).1
      "service1" "object1" "1" "john" ["faz", "boo", "baz"] = none :=
  ⟨by decide,
    (grant_then_has [] "service1" "object1" "1" "john" ["faz", "boo", "baz"] (by decide)).2⟩

/-- C2 as stated fails: the non-empty list `["a", "a.b"]` makes the `$set` address
`privileges.a` and `privileges.a.b` at once; the store rejects the update and Has on
the same names then reports not found. -/
theorem grant_then_has_counterexample :
    (["a", "a.b"] : List String) ≠ [] ∧
    (ACL.Grant [] "s" "o" "k" "u" ["a", "a.b"]).2 = some .writeFailed ∧
    ACL.Has (ACL.Grant [] "s" "o" "k" "u" ["a", "a.b"]).1 "s" "o" "k" "u" ["a", "a.b"]
      = some .notFound := by
  decide

/-- C3 (amended): for a non-empty list of plain privilege names and a collection with
at most one record of the tuple, Deny reports no error and Has with the same tuple and
names then reports not found. -/
theorem deny_then_has (c : Collection) (service object key user : String)
    (ps : List String) (hne : ps ≠ []) (hps : ∀ p ∈ ps, PlainName p)
    (hu : atMostOne c service object key user) :
    (ACL.Deny c service object key user ps).2 = none ∧
    ACL.Has (ACL.Deny c service object key user ps).1 service object key user ps
      = some .notFound := by
  rw [deny_eq c service object key user ps hps]
  refine ⟨rfl, ?_⟩
  simp only
  have hx := recordsOf_after_unique c service object key user
    (fun P => setPrivs P (privFields ps (.str "deny"))) hu
  rcases has_none_or_notFound (upsertWith service object key user
      (fun a => { a with Privileges := setPrivs a.Privileges (privFields ps (.str "deny")) })
      ⟨service, object, key, user, setPrivs [] (privFields ps (.str "deny"))⟩ c)
      service object key user ps with h | h
  · exfalso
    rw [has_single _ _ _ _ _ _ hx ps (fun p hp => (hps p hp).2.1)] at h
    obtain ⟨p, hp⟩ := List.exists_mem_of_ne_nil ps hne
    have := h p hp
    simp only [mapGet_granted, if_pos hp] at this
    exact not_holdsAllow_deny this
  · exact h

/-- C3 witness: denying `far` on a record that allowed it. -/
theorem deny_then_has_witness :
    (["far"] : List String) ≠ [] ∧ (∀ p ∈ ["far"], PlainName p) ∧
    atMostOne [⟨"service1", "object1", "1", "john", [("far", .str "allow")]⟩]
      "service1" "object1" "1" "john" ∧
    ACL.Has (ACL.Deny [⟨"service1", "object1", "1", "john", [("far", .str "allow")]⟩]
      "service1" "object1" "1" "john" ["far"]).1 "service1" "object1" "1" "john" ["far"]
      = some .notFound :=
  ⟨by decide, by decide, by decide,
    (deny_then_has [⟨"service1", "object1", "1", "john", [("far", .str "allow")]⟩]
      "service1" "object1" "1" "john" ["far"] (by decide) (by decide) (by decide)).2⟩

/-- C3 as stated fails twice.  Set stores the mapping `{a: [{b: "allow"}]}` as it is
given; on that record Deny of `a.b` is rejected (a `$set` cannot step through an array
by a field name) while Has of `a.b` succeeds through the array.  And in a collection
with two records of the tuple, Deny of `far` changes the first only and Has still finds
the second. -/
theorem deny_then_has_counterexample :
    ((ACL.Set [] "s" "o" "k" "u" [("a", .arr [.doc [("b", .str "allow")]])]).1
        = [⟨"s", "o", "k", "u", [("a", .arr [.doc [("b", .str "allow")]])]⟩] ∧
      (["a.b"] : List String) ≠ [] ∧
      (ACL.Deny [⟨"s", "o", "k", "u", [("a", .arr [.doc [("b", .str "allow")]])]⟩]
        "s" "o" "k" "u" ["a.b"]).2 = some .writeFailed ∧
      ACL.Has (ACL.Deny [⟨"s", "o", "k", "u", [("a", .arr [.doc [("b", .str "allow")]])]⟩]
        "s" "o" "k" "u" ["a.b"]).1 "s" "o" "k" "u" ["a.b"] = none) ∧
    ((["far"] : List String) ≠ [] ∧
      ACL.Has (ACL.Deny [⟨"s", "o", "k", "u", [("far", .str "allow")]⟩,
          ⟨"s", "o", "k", "u", [("far", .str "allow")]⟩]
        "s" "o" "k" "u" ["far"]).1 "s" "o" "k" "u" ["far"] = none) := by
  refine ⟨⟨rfl, by decide, by decide, by decide⟩, ⟨by decide, by decide⟩⟩

/-- C4 (amended): for plain privilege names, Grant reports no error, leaves every name
outside the list with the value Get showed before, and leaves the records of all other
tuples as they were; and after Grant of `A` and then Grant of `B` on the same tuple, Has
of `A ++ B` succeeds. -/
theorem grant_keeps_rest (c : Collection) (service object key user : String)
    (A B : List String) (hA : ∀ p ∈ A, PlainName p) (hB : ∀ p ∈ B, PlainName p) :
    (ACL.Grant c service object key user A).2 = none ∧
    (∀ n, n ∉ A →
      mapGet (ACL.Get (ACL.Grant c service object key user A).1
          service object key user).1.Privileges n
        = mapGet (ACL.Get c service object key user).1.Privileges n) ∧
    ((ACL.Grant c service object key user A).1.filter
        (fun a => !isTuple service object key user a)
      = c.filter (fun a => !isTuple service object key user a)) ∧
    ACL.Has (ACL.Grant (ACL.Grant c service object key user A).1
        service object key user B).1 service object key user (A ++ B) = none := by
  rw [grant_eq _ service object key user B hB]
  rw [grant_eq c service object key user A hA]
  simp only
  refine ⟨trivial, ?_, ?_, ?_⟩
  · intro n hn
    rw [get_after c service object key user
      (fun P => setPrivs P (privFields A (.str "allow")))]
    simp only [mapGet_granted, if_neg hn]
  · exact others_after c service object key user
      (fun P => setPrivs P (privFields A (.str "allow")))
  · rw [has_eq_none_iff]
    have hg := get_after (upsertWith service object key user
        (fun a => { a with Privileges := setPrivs a.Privileges (privFields A (.str "allow")) })
        ⟨service, object, key, user, setPrivs [] (privFields A (.str "allow"))⟩ c)
      service object key user (fun P => setPrivs P (privFields B (.str "allow")))
    refine ⟨_, get_mem_recordsOf _ _ _ _ _ _ hg, ?_⟩
    intro p hp
    have hplain : PlainName p := by
      rcases List.mem_append.mp hp with h | h
      · exact hA p h
      · exact hB p h
    rw [pathMatches_nodot _ p hplain.2.1]
    simp only [mapGet_granted]
    by_cases hb : p ∈ B
    · rw [if_pos hb]; exact holdsAllow_allow
    · rw [if_neg hb]
      have ha : p ∈ A := by
        rcases List.mem_append.mp hp with h | h
        · exact h
        · exact absurd h hb
      rw [get_after c service object key user
        (fun P => setPrivs P (privFields A (.str "allow")))]
      simp only [mapGet_granted, if_pos ha]
      exact holdsAllow_allow

/-- C4 witness: granting `far` and `foos` on top of `faz`, `boo` and `baz`. -/
theorem grant_keeps_rest_witness :
    (∀ p ∈ ["faz", "boo", "baz"], PlainName p) ∧ (∀ p ∈ ["far", "foos"], PlainName p) ∧
    ACL.Has (ACL.Grant (ACL.Grant [] "service1" "object1" "1" "john" ["faz", "boo", "baz"]).1
        "service1" "object1" "1" "john" ["far", "foos"]).1 "service1" "object1" "1" "john"
        (["faz", "boo", "baz"] ++ ["far", "foos"]) = none :=
  ⟨by decide, by decide,
    (grant_keeps_rest [] "service1" "object1" "1" "john" ["faz", "boo", "baz"] ["far", "foos"]
      (by decide) (by decide)).2.2.2⟩

/-- C4 as stated fails twice.  On the record `{a: {c: "allow"}}`, which Grant of `a.c`
leaves, Grant of `a.b` changes the value of the name `a`, which is not in the list: the
document becomes `{c: "allow", b: "allow"}`.  And for the disjoint lists `["a"]` and
`["a.b"]` the second Grant is rejected (it would have to step through the string stored
under `a`), so Has of both names reports not found. -/
theorem grant_keeps_rest_counterexample :
    ((ACL.Grant [] "s" "o" "k" "u" ["a.c"]).1
        = [⟨"s", "o", "k", "u", [("a", .doc [("c", .str "allow")])]⟩] ∧
      "a" ∉ (["a.b"] : List String) ∧
      mapGet (ACL.Get [⟨"s", "o", "k", "u", [("a", .doc [("c", .str "allow")])]⟩]
          "s" "o" "k" "u").1.Privileges "a" = some (.doc [("c", .str "allow")]) ∧
      mapGet (ACL.Get (ACL.Grant [⟨"s", "o", "k", "u", [("a", .doc [("c", .str "allow")])]⟩]
          "s" "o" "k" "u" ["a.b"]).1 "s" "o" "k" "u").1.Privileges "a"
        = some (.doc [("c", .str "allow"), ("b", .str "allow")])) ∧
    ((∀ x ∈ (["a"] : List String), x ∉ (["a.b"] : List String)) ∧
      (ACL.Grant (ACL.Grant [] "s" "o" "k" "u" ["a"]).1 "s" "o" "k" "u" ["a.b"]).2
        = some .writeFailed ∧
      ACL.Has (ACL.Grant (ACL.Grant [] "s" "o" "k" "u" ["a"]).1 "s" "o" "k" "u" ["a.b"]).1
        "s" "o" "k" "u" (["a"] ++ ["a.b"]) = some .notFound) := by
  refine ⟨⟨rfl, by decide, rfl, rfl⟩, ⟨by decide, by decide, by decide⟩⟩

theorem filter_mapDelete (P : M) (n : String) :
    (mapDelete P n).filter (fun e => decide (e.1 = n)) = [] := by
  rw [List.filter_eq_nil_iff]
  intro e he
  have := ((mem_mapDelete P n e).mp he).2
  simpa using this

theorem count_mapSet (P : M) (n : String) (v : Value) :
    ((mapSet P n v).filter (fun e => decide (e.1 = n))).length = 1 := by
  induction P with
  | nil => simp [mapSet]
  | cons hd t ih =>
    obtain ⟨k', v'⟩ := hd
    by_cases hk : k' = n
    · simp [mapSet, hk, filter_mapDelete]
    · simp [mapSet, hk, ih]

theorem length_mapSet_absent (P : M) (n : String) (v : Value) (h : mapGet P n = none) :
    (mapSet P n v).length = P.length + 1 := by
  induction P with
  | nil => simp [mapSet]
  | cons hd t ih =>
    obtain ⟨k', v'⟩ := hd
    by_cases hk : k' = n
    · simp [mapGet, hk] at h
    · simp only [mapGet, if_neg hk] at h
      simp [mapSet, hk, ih h]

theorem plain_single (n : String) (hn : PlainName n) : ∀ p ∈ [n], PlainName p := by
  intro p hp
  rw [List.mem_singleton.mp hp]
  exact hn

/-- C5 (amended): for a plain privilege name `n`, the last of Grant and Deny decides its
value: after Grant then Deny the record of the tuple maps `n` to "deny", after Deny then
Grant to "allow", with one entry for `n` in both cases; and Deny of a name that was
absent adds it with value "deny" and makes the mapping one entry longer. -/
theorem last_call_wins (c : Collection) (service object key user n : String)
    (hn : PlainName n) :
    (mapGet (ACL.Get (ACL.Deny (ACL.Grant c service object key user [n]).1
        service object key user [n]).1 service object key user).1.Privileges n
        = some (.str "deny") ∧
      ((ACL.Get (ACL.Deny (ACL.Grant c service object key user [n]).1
        service object key user [n]).1 service object key user).1.Privileges.filter
          (fun e => decide (e.1 = n))).length = 1) ∧
    (mapGet (ACL.Get (ACL.Grant (ACL.Deny c service object key user [n]).1
        service object key user [n]).1 service object key user).1.Privileges n
        = some (.str "allow") ∧
      ((ACL.Get (ACL.Grant (ACL.Deny c service object key user [n]).1
        service object key user [n]).1 service object key user).1.Privileges.filter
          (fun e => decide (e.1 = n))).length = 1) ∧
    (mapGet (ACL.Get c service object key user).1.Privileges n = none →
      mapGet (ACL.Get (ACL.Deny c service object key user [n]).1
          service object key user).1.Privileges n = some (.str "deny") ∧
      (ACL.Get (ACL.Deny c service object key user [n]).1
          service object key user).1.Privileges.length
        = (ACL.Get c service object key user).1.Privileges.length + 1) := by
  have h1 := plain_single n hn
  refine ⟨?_, ?_, ?_⟩
  · rw [deny_eq _ service object key user [n] h1, grant_eq c service object key user [n] h1]
    simp only
    rw [get_after _ service object key user (fun P => setPrivs P (privFields [n] (.str "deny")))]
    simp only [granted_single]
    exact ⟨by rw [mapGet_mapSet, if_pos rfl], count_mapSet _ _ _⟩
  · rw [grant_eq _ service object key user [n] h1, deny_eq c service object key user [n] h1]
    simp only
    rw [get_after _ service object key user (fun P => setPrivs P (privFields [n] (.str "allow")))]
    simp only [granted_single]
    exact ⟨by rw [mapGet_mapSet, if_pos rfl], count_mapSet _ _ _⟩
  · intro habs
    rw [deny_eq c service object key user [n] h1]
    simp only
    rw [get_after _ service object key user (fun P => setPrivs P (privFields [n] (.str "deny")))]
    simp only [granted_single]
    exact ⟨by rw [mapGet_mapSet, if_pos rfl], length_mapSet_absent _ _ _ habs⟩

/-- C5 witness: denying `far` after it was granted on the record of the test suite. -/
theorem last_call_wins_witness :
    PlainName "far" ∧
    mapGet (ACL.Get (ACL.Deny (ACL.Grant [] "service1" "object1" "1" "john" ["far"]).1
        "service1" "object1" "1" "john" ["far"]).1 "service1" "object1" "1" "john").1.Privileges
        "far" = some (.str "deny") :=
  ⟨by decide, (last_call_wins [] "service1" "object1" "1" "john" "far" (by decide)).1.1⟩

/-- C5 as stated fails at the name `a.b`: after Grant and then Deny the record maps `a`
to the document `{b: "deny"}` and has no entry for `a.b` at all. -/
theorem last_call_wins_counterexample :
    mapGet (ACL.Get (ACL.Deny (ACL.Grant [] "s" "o" "k" "u" ["a.b"]).1
        "s" "o" "k" "u" ["a.b"]).1 "s" "o" "k" "u").1.Privileges "a.b" = none ∧
    mapGet (ACL.Get (ACL.Deny (ACL.Grant [] "s" "o" "k" "u" ["a.b"]).1
        "s" "o" "k" "u" ["a.b"]).1 "s" "o" "k" "u").1.Privileges "a"
        = some (.doc [("b", .str "deny")]) ∧
    ((ACL.Get (ACL.Deny (ACL.Grant [] "s" "o" "k" "u" ["a.b"]).1
        "s" "o" "k" "u" ["a.b"]).1 "s" "o" "k" "u").1.Privileges.filter
          (fun e => decide (e.1 = "a.b"))).length = 0 := by
  refine ⟨rfl, rfl, rfl⟩

theorem upsertWith_fixed (service object key user : String) (f : ACL → ACL) (a0 : ACL)
    (c : Collection)
    (hf : ∀ a, recordOf c service object key user = some a → f a = a)
    (hex : recordOf c service object key user ≠ none) :
    upsertWith service object key user f a0 c = c := by
  induction c with
  | nil => simp [recordOf] at hex
  | cons a t ih =>
    by_cases ht : isTuple service object key user a = true
    · have : f a = a := hf a (by simp [recordOf, List.find?_cons, ht])
      simp [upsertWith, ht, this]
    · simp only [Bool.not_eq_true] at ht
      have hrec : recordOf (a :: t) service object key user
          = recordOf t service object key user := by
        simp [recordOf, List.find?_cons, ht]
      rw [hrec] at hf hex
      simp [upsertWith, ht, ih hf hex]

theorem upsertWith_congr (service object key user : String) (f g : ACL → ACL) (a0 : ACL)
    (h : ∀ a, isTuple service object key user a = true → f a = g a) (c : Collection) :
    upsertWith service object key user f a0 c = upsertWith service object key user g a0 c := by
  induction c with
  | nil => rfl
  | cons a t ih =>
    by_cases ht : isTuple service object key user a = true
    · simp [upsertWith, ht, h a ht]
    · simp only [Bool.not_eq_true] at ht
      simp [upsertWith, ht, ih]

theorem get_found (c : Collection) (service object key user : String)
    (h : (ACL.Get c service object key user).2 = none) :
    recordOf c service object key user = some (ACL.Get c service object key user).1 := by
  rw [get_eq] at h ⊢
  cases hr : recordOf c service object key user with
  | none => rw [hr] at h; simp at h
  | some a => rfl

theorem get_notFound (c : Collection) (service object key user : String)
    (h : (ACL.Get c service object key user).2 = some .notFound) :
    recordsOf c service object key user = [] := by
  rw [get_eq, recordOf_eq_head] at h
  cases hr : recordsOf c service object key user with
  | nil => rfl
  | cons a t => rw [hr] at h; simp at h

theorem revoke_eq_after (c : Collection) (service object key user : String)
    (ps : List String) (hps : ∀ p ∈ ps, PlainName p) :
    ACL.Revoke c service object key user ps
      = (upsertWith service object key user
          (fun a => { a with Privileges :=
            (fun P => unsetPrivs P (privFields ps (.str ""))) a.Privileges })
          ⟨service, object, key, user,
            (fun P => unsetPrivs P (privFields ps (.str ""))) []⟩ c, none) := by
  rw [revoke_eq c service object key user ps hps]
  simp only [unsetPrivs_nil]

/-- C6 (amended): on a collection that holds a record of the tuple and for plain
privilege names, Revoke reports no error and removes exactly the listed names from the
mapping Get shows: no listed name is present afterwards, every other name keeps its
value, Has on a listed name reports not found when the tuple has one record only, and
when no listed name was present the collection is left as it was. -/
theorem revoke_removes (c : Collection) (service object key user : String)
    (ps : List String) (hex : (ACL.Get c service object key user).2 = none)
    (hps : ∀ p ∈ ps, PlainName p) :
    (ACL.Revoke c service object key user ps).2 = none ∧
    (ACL.Get (ACL.Revoke c service object key user ps).1 service object key user).2 = none ∧
    (∀ p ∈ ps, mapGet (ACL.Get (ACL.Revoke c service object key user ps).1
        service object key user).1.Privileges p = none) ∧
    (∀ n, n ∉ ps →
      mapGet (ACL.Get (ACL.Revoke c service object key user ps).1
          service object key user).1.Privileges n
        = mapGet (ACL.Get c service object key user).1.Privileges n) ∧
    (atMostOne c service object key user → ∀ p ∈ ps,
      ACL.Has (ACL.Revoke c service object key user ps).1 service object key user [p]
        = some .notFound) ∧
    ((∀ p ∈ ps, mapGet (ACL.Get c service object key user).1.Privileges p = none) →
      (ACL.Revoke c service object key user ps).1 = c) := by
  have hrev := revoke_eq_after c service object key user ps hps
  have hget := get_after c service object key user
    (fun P => unsetPrivs P (privFields ps (.str "")))
  refine ⟨?_, ?_, ?_, ?_, ?_, ?_⟩
  · rw [hrev]
  · rw [hrev]; simp only; rw [hget]
  · intro p hp
    rw [hrev]; simp only; rw [hget]
    simp only [mapGet_revoked, if_pos hp]
  · intro n hn
    rw [hrev]; simp only; rw [hget]
    simp only [mapGet_revoked, if_neg hn]
  · intro hu p hp
    rw [hrev]; simp only
    have hx := recordsOf_after_unique c service object key user
      (fun P => unsetPrivs P (privFields ps (.str ""))) hu
    rcases has_none_or_notFound (upsertWith service object key user
        (fun a => { a with Privileges :=
          (fun P => unsetPrivs P (privFields ps (.str ""))) a.Privileges })
        ⟨service, object, key, user,
          (fun P => unsetPrivs P (privFields ps (.str ""))) []⟩ c)
        service object key user [p] with h | h
    · exfalso
      rw [has_single _ _ _ _ _ _ hx [p]
        (fun q hq => by rw [List.mem_singleton.mp hq]; exact (hps p hp).2.1)] at h
      have := h p (List.mem_singleton.mpr rfl)
      simp only [mapGet_revoked, if_pos hp] at this
      exact not_holdsAllow_none this
    · exact h
  · intro habs
    rw [revoke_eq c service object key user ps hps]
    simp only
    apply upsertWith_fixed
    · intro a ha
      rw [get_found c service object key user hex] at ha
      have ha' : (ACL.Get c service object key user).1 = a := Option.some.inj ha
      rw [ha'] at habs
      rw [revoked_of_absent a.Privileges ps (.str "") habs]
    · rw [get_found c service object key user hex]
      simp

/-- C6 witness: revoking `far` and `faz` from the record of the test suite. -/
theorem revoke_removes_witness :
    (ACL.Get [⟨"service1", "object1", "1", "john",
        [("far", .str "deny"), ("faz", .str "allow"), ("boo", .str "allow")]⟩]
      "service1" "object1" "1" "john").2 = none ∧
    (∀ p ∈ ["far", "faz"], PlainName p) ∧
    (∀ p ∈ ["far", "faz"], mapGet (ACL.Get (ACL.Revoke [⟨"service1", "object1", "1", "john",
        [("far", .str "deny"), ("faz", .str "allow"), ("boo", .str "allow")]⟩]
      "service1" "object1" "1" "john" ["far", "faz"]).1
        "service1" "object1" "1" "john").1.Privileges p = none) :=
  ⟨by decide, by decide,
    (revoke_removes [⟨"service1", "object1", "1", "john",
        [("far", .str "deny"), ("faz", .str "allow"), ("boo", .str "allow")]⟩]
      "service1" "object1" "1" "john" ["far", "faz"] (by decide) (by decide)).2.2.1⟩

/-- C6 as stated fails twice.  On the record `{a: {b: "allow", c: "allow"}}`, which
Grant of `a.b` and `a.c` leaves, Revoke of `a.b` changes the value of the name `a`,
which is not in the list: the document becomes `{c: "allow"}`.  And in a collection
with two records of the tuple, Revoke of `far` changes the first only and Has of `far`
still succeeds on the second. -/
theorem revoke_removes_counterexample :
    ((ACL.Grant [] "s" "o" "k" "u" ["a.b", "a.c"]).1
        = [⟨"s", "o", "k", "u", [("a", .doc [("b", .str "allow"), ("c", .str "allow")])]⟩] ∧
      (ACL.Get [⟨"s", "o", "k", "u",
          [("a", .doc [("b", .str "allow"), ("c", .str "allow")])]⟩] "s" "o" "k" "u").2 = none ∧
      "a" ∉ (["a.b"] : List String) ∧
      mapGet (ACL.Get [⟨"s", "o", "k", "u",
          [("a", .doc [("b", .str "allow"), ("c", .str "allow")])]⟩]
          "s" "o" "k" "u").1.Privileges "a"
        = some (.doc [("b", .str "allow"), ("c", .str "allow")]) ∧
      mapGet (ACL.Get (ACL.Revoke [⟨"s", "o", "k", "u",
          [("a", .doc [("b", .str "allow"), ("c", .str "allow")])]⟩]
          "s" "o" "k" "u" ["a.b"]).1 "s" "o" "k" "u").1.Privileges "a"
        = some (.doc [("c", .str "allow")])) ∧
    ((ACL.Get [⟨"s", "o", "k", "u", [("far", .str "allow")]⟩,
          ⟨"s", "o", "k", "u", [("far", .str "allow")]⟩] "s" "o" "k" "u").2 = none ∧
      ACL.Has (ACL.Revoke [⟨"s", "o", "k", "u", [("far", .str "allow")]⟩,
          ⟨"s", "o", "k", "u", [("far", .str "allow")]⟩]
        "s" "o" "k" "u" ["far"]).1 "s" "o" "k" "u" ["far"] = none) := by
  refine ⟨⟨rfl, by decide, by decide, rfl, rfl⟩, ⟨by decide, by decide⟩⟩

/-- C7 (amended): on a collection without a record of the tuple and for plain privilege
names, Revoke reports no error and, being an upsert, adds a record that carries the
tuple and an empty privilege mapping; Get on the tuple then returns that record. -/
theorem revoke_creates (c : Collection) (service object key user : String)
    (ps : List String) (habs : (ACL.Get c service object key user).2 = some .notFound)
    (hps : ∀ p ∈ ps, PlainName p) :
    (ACL.Revoke c service object key user ps).2 = none ∧
    (ACL.Revoke c service object key user ps).1 = c ++ [⟨service, object, key, user, []⟩] ∧
    ACL.Get (ACL.Revoke c service object key user ps).1 service object key user
      = (⟨service, object, key, user, []⟩, none) := by
  have hnone := get_notFound c service object key user habs
  refine ⟨?_, ?_, ?_⟩
  · rw [revoke_eq c service object key user ps hps]
  · rw [revoke_eq c service object key user ps hps]
    exact upsertWith_absent _ _ _ _ _ _ c hnone
  · rw [revoke_eq_after c service object key user ps hps]
    simp only
    rw [get_after c service object key user
      (fun P => unsetPrivs P (privFields ps (.str ""))), get_privileges, hnone]
    simp only [unsetPrivs_nil]

/-- C7 witness: revoking `far` for a tuple the collection does not know. -/
theorem revoke_creates_witness :
    (ACL.Get [] "service1" "object1" "7" "jane").2 = some .notFound ∧
    (∀ p ∈ ["far"], PlainName p) ∧
    (ACL.Revoke [] "service1" "object1" "7" "jane" ["far"]).1
      = [] ++ [⟨"service1", "object1", "7", "jane", []⟩] :=
  ⟨by decide, by decide,
    (revoke_creates [] "service1" "object1" "7" "jane" ["far"] (by decide) (by decide)).2.1⟩

/-- C7 as stated fails: on the empty collection Get reports not found, and after Revoke
of `far` Get on the same tuple succeeds, on a record Revoke has created. -/
theorem revoke_creates_counterexample :
    (ACL.Get [] "s" "o" "k" "u").2 = some .notFound ∧
    (ACL.Get (ACL.Revoke [] "s" "o" "k" "u" ["far"]).1 "s" "o" "k" "u").2 = none ∧
    (ACL.Revoke [] "s" "o" "k" "u" ["far"]).1.length = 1 := by
  decide

theorem set_eq_after (c : Collection) (service object key user : String) (m : M) :
    ACL.Set c service object key user m
      = (upsertWith service object key user
          (fun a => { a with Privileges := (fun (_ : M) => m) a.Privileges })
          ⟨service, object, key, user, (fun (_ : M) => m) []⟩ c, none) := by
  rw [set_eq]
  congr 1
  apply upsertWith_congr
  intro a ha
  obtain ⟨h1, h2, h3, h4⟩ := (isTuple_iff _ _ _ _ a).mp ha
  subst h1 h2 h3 h4
  rfl

/-- C8 (amended): for every collection, tuple and mapping `m`, Set reports no error;
Get on the tuple then returns a record that carries the tuple and has `m` as its
privilege mapping, so that no name absent from `m` is left in it, whether the record
existed before or not; the records of all other tuples are as they were; and when the
tuple had at most one record, Has on a dot-free name absent from `m` reports not found. -/
theorem set_replaces (c : Collection) (service object key user : String) (m : M) :
    (ACL.Set c service object key user m).2 = none ∧
    ACL.Get (ACL.Set c service object key user m).1 service object key user
      = (⟨service, object, key, user, m⟩, none) ∧
    ((ACL.Set c service object key user m).1.filter
        (fun a => !isTuple service object key user a)
      = c.filter (fun a => !isTuple service object key user a)) ∧
    (∀ n, mapGet m n = none →
      mapGet (ACL.Get (ACL.Set c service object key user m).1
        service object key user).1.Privileges n = none) ∧
    (atMostOne c service object key user → ∀ n : String, '.' ∉ n.toList →
      mapGet m n = none →
      ACL.Has (ACL.Set c service object key user m).1 service object key user [n]
        = some .notFound) := by
  have hset := set_eq_after c service object key user m
  have hget := get_after c service object key user (fun (_ : M) => m)
  refine ⟨?_, ?_, ?_, ?_, ?_⟩
  · rw [hset]
  · rw [hset]; exact hget
  · rw [hset]; exact others_after c service object key user (fun (_ : M) => m)
  · intro n hn
    rw [hset]; simp only; rw [hget]
    exact hn
  · intro hu n hdot hn
    rw [hset]; simp only
    have hx := recordsOf_after_unique c service object key user (fun (_ : M) => m) hu
    rcases has_none_or_notFound (upsertWith service object key user
        (fun a => { a with Privileges := (fun (_ : M) => m) a.Privileges })
        ⟨service, object, key, user, (fun (_ : M) => m) []⟩ c)
        service object key user [n] with h | h
    · exfalso
      rw [has_single _ _ _ _ _ _ hx [n]
        (fun q hq => by rw [List.mem_singleton.mp hq]; exact hdot)] at h
      have := h n (List.mem_singleton.mpr rfl)
      simp only [hn] at this
      exact not_holdsAllow_none this
    · exact h

/-- C8 as stated fails twice.  The name `a.b`, granted before, is absent from the new
mapping `{a: {b: "allow"}}`, and Has of `a.b` succeeds after Set.  And in a collection
with two records of the tuple, Set of the empty mapping replaces the first only and Has
of `far` still succeeds on the second. -/
theorem set_replaces_counterexample :
    (ACL.Has (ACL.Grant [] "s" "o" "k" "u" ["a.b"]).1 "s" "o" "k" "u" ["a.b"] = none ∧
      mapGet [("a", .doc [("b", .str "allow")])] "a.b" = none ∧
      ACL.Has (ACL.Set (ACL.Grant [] "s" "o" "k" "u" ["a.b"]).1 "s" "o" "k" "u"
        [("a", .doc [("b", .str "allow")])]).1 "s" "o" "k" "u" ["a.b"] = none) ∧
    (mapGet [] "far" = none ∧
      ACL.Has (ACL.Set [⟨"s", "o", "k", "u", [("far", .str "allow")]⟩,
          ⟨"s", "o", "k", "u", [("far", .str "allow")]⟩]
        "s" "o" "k" "u" []).1 "s" "o" "k" "u" ["far"] = none) := by
  refine ⟨⟨by decide, rfl, by decide⟩, ⟨rfl, by decide⟩⟩

theorem matches_three (service object user : String) (a : ACL) :
    matchesSelector [("service", .str service), ("object", .str object),
      ("user", .str user)] a.toDoc = true ↔
      a.Service = service ∧ a.Object = object ∧ a.User = user := by
  rw [matchesSelector_iff]
  simp [fieldPath_service, fieldPath_object, fieldPath_user,
    pathMatches_service, pathMatches_object, pathMatches_user]

theorem mem_match (c : Collection) (service object user : String) (ps : List String)
    (k : String) :
    k ∈ (ACL.Match c service object user ps).1 ↔
      ∃ a ∈ c, a.Service = service ∧ a.Object = object ∧ a.User = user ∧ a.Key = k ∧
        ∀ p ∈ ps, pathMatches (fieldPath p) (.doc a.Privileges) (.str "allow") = true := by
  have hbase : ∀ e ∈ ([("service", .str service), ("object", .str object),
      ("user", .str user)] : M), ∀ p : String, e.1 ≠ "privileges." ++ p := by
    intro e he p
    simp only [List.mem_cons, List.mem_singleton, List.not_mem_nil, or_false] at he
    rcases he with he | he | he <;> subst he
    · exact priv_ne_service p
    · exact priv_ne_object p
    · exact priv_ne_user p
  unfold ACL.Match Query.Distinct Collection.Find
  simp only [List.mem_dedup, List.mem_filterMap, List.mem_filter]
  constructor
  · rintro ⟨a, ⟨hmem, hm⟩, hk⟩
    rw [matches_privFoldl _ hbase, matches_three] at hm
    have hkey : a.Key = k := by
      simpa [ACL.toDoc, mapGet] using hk
    refine ⟨a, hmem, hm.1.1, hm.1.2.1, hm.1.2.2, hkey, ?_⟩
    intro p hp
    have := hm.2 p hp
    rwa [pathMatches_privileges] at this
  · rintro ⟨a, hmem, h1, h2, h3, hk, hp⟩
    refine ⟨a, ⟨hmem, ?_⟩, ?_⟩
    · rw [matches_privFoldl _ hbase, matches_three]
      refine ⟨⟨h1, h2, h3⟩, ?_⟩
      intro p hp'
      rw [pathMatches_privileges]
      exact hp p hp'
    · simp [ACL.toDoc, mapGet, hk]

/-- C9 (amended): for privilege names without a dot, Match reports no error and returns,
without duplicates, exactly the keys `k` for which the collection holds a record
`(service, object, k, user)` in which every listed name maps to "allow" or to an array
holding "allow" (so, where no privilege value is an array, in which every listed name
maps to "allow"); keys of another service, object or user are not returned. -/
theorem match_keys (c : Collection) (service object user : String) (ps : List String)
    (hps : ∀ p ∈ ps, '.' ∉ p.toList) :
    (ACL.Match c service object user ps).2 = none ∧
    (ACL.Match c service object user ps).1.Nodup ∧
    (∀ k, k ∈ (ACL.Match c service object user ps).1 ↔
      ∃ a ∈ c, a.Service = service ∧ a.Object = object ∧ a.User = user ∧ a.Key = k ∧
        ∀ p ∈ ps, holdsAllow (mapGet a.Privileges p)) ∧
    ((∀ a ∈ c, ∀ e ∈ a.Privileges, ∀ items, e.2 ≠ .arr items) →
      ∀ k, k ∈ (ACL.Match c service object user ps).1 ↔
        ∃ a ∈ c, a.Service = service ∧ a.Object = object ∧ a.User = user ∧ a.Key = k ∧
          ∀ p ∈ ps, mapGet a.Privileges p = some (.str "allow")) := by
  have main : ∀ k, k ∈ (ACL.Match c service object user ps).1 ↔
      ∃ a ∈ c, a.Service = service ∧ a.Object = object ∧ a.User = user ∧ a.Key = k ∧
        ∀ p ∈ ps, holdsAllow (mapGet a.Privileges p) := by
    intro k
    rw [mem_match]
    constructor
    · rintro ⟨a, hmem, h1, h2, h3, h4, hp⟩
      exact ⟨a, hmem, h1, h2, h3, h4,
        fun p hpp => (pathMatches_nodot _ p (hps p hpp)).mp (hp p hpp)⟩
    · rintro ⟨a, hmem, h1, h2, h3, h4, hp⟩
      exact ⟨a, hmem, h1, h2, h3, h4,
        fun p hpp => (pathMatches_nodot _ p (hps p hpp)).mpr (hp p hpp)⟩
  refine ⟨rfl, ?_, main, ?_⟩
  · unfold ACL.Match Query.Distinct
    exact List.nodup_dedup _
  · intro hstr k
    rw [main]
    constructor
    · rintro ⟨a, hmem, h1, h2, h3, h4, hp⟩
      refine ⟨a, hmem, h1, h2, h3, h4, ?_⟩
      intro p hpp
      rcases hp p hpp with h | ⟨items, h, _⟩
      · exact h
      · exact absurd rfl (hstr a hmem _ (mapGet_mem _ _ _ h) items)
    · rintro ⟨a, hmem, h1, h2, h3, h4, hp⟩
      exact ⟨a, hmem, h1, h2, h3, h4, fun p hpp => Or.inl (hp p hpp)⟩

/-- C9 witness: of two keys of john, only the one with both `far` and `fal` allowed is
matched. -/
theorem match_keys_witness :
    (∀ p ∈ ["far", "fal"], '.' ∉ p.toList) ∧
    (ACL.Match [⟨"service1", "object1", "1", "john",
          [("far", .str "allow"), ("fal", .str "allow")]⟩,
        ⟨"service1", "object1", "2", "john",
          [("far", .str "allow"), ("faz", .str "deny")]⟩]
      "service1" "object1" "john" ["far", "fal"]).1.Nodup :=
  ⟨by decide,
    (match_keys [⟨"service1", "object1", "1", "john",
          [("far", .str "allow"), ("fal", .str "allow")]⟩,
        ⟨"service1", "object1", "2", "john",
          [("far", .str "allow"), ("faz", .str "deny")]⟩]
      "service1" "object1" "john" ["far", "fal"] (by decide)).2.1⟩

/-- C9 as stated fails.  Set stores the mapping `{far: ["deny", "allow"]}` as it is
given, and Match for `far` returns the key of that record.  Grant of `a.b` stores
`{a: {b: "allow"}}`, and Match for `a.b` returns the key of that record.  In neither
record does the listed name map to "allow". -/
theorem match_keys_counterexample :
    ((ACL.Set [] "s" "o" "1" "u" [("far", .arr [.str "deny", .str "allow"])]).1
        = [⟨"s", "o", "1", "u", [("far", .arr [.str "deny", .str "allow"])]⟩] ∧
      "1" ∈ (ACL.Match [⟨"s", "o", "1", "u", [("far", .arr [.str "deny", .str "allow"])]⟩]
        "s" "o" "u" ["far"]).1 ∧
      mapGet [("far", .arr [.str "deny", .str "allow"])] "far"
        = some (.arr [.str "deny", .str "allow"])) ∧
    ((ACL.Grant [] "s" "o" "2" "u" ["a.b"]).1
        = [⟨"s", "o", "2", "u", [("a", .doc [("b", .str "allow")])]⟩] ∧
      "2" ∈ (ACL.Match [⟨"s", "o", "2", "u", [("a", .doc [("b", .str "allow")])]⟩]
        "s" "o" "u" ["a.b"]).1 ∧
      mapGet [("a", .doc [("b", .str "allow")])] "a.b" = none) := by
  refine ⟨⟨rfl, by decide, rfl⟩, ⟨rfl, by decide, rfl⟩⟩

/-- C10: List returns exactly the records whose service and object equal the arguments
and whose key equals `key` unless `key` is empty and whose user equals `user` unless
`user` is empty, and reports no error. -/
theorem list_filters (c : Collection) (service object key user : String) :
    ACL.List c service object key user =
      (c.filter (fun a => decide (a.Service = service ∧ a.Object = object ∧
        (key = "" ∨ a.Key = key) ∧ (user = "" ∨ a.User = user))), none) := by
  unfold ACL.List Query.All Collection.Find
  dsimp only
  congr 1
  apply List.filter_congr
  intro a _
  rw [Bool.eq_iff_iff, matchesSelector_iff]
  by_cases hk : key = "" <;> by_cases hu : user = "" <;>
    simp [hk, hu, mapSet, fieldPath_service, fieldPath_object, fieldPath_key, fieldPath_user,
      pathMatches_service, pathMatches_object, pathMatches_key, pathMatches_user]

/-! ## The scenario, the enumerations, the index and the update of Grant -/

/-- C11: from the empty collection and the tuple (service1, object1, "1", john), Get
returns exactly faz, boo and baz allowed after the first Grant; five entries, all
"allow", after the Grant of far and foos; far denied and still five entries after the
Deny of far; and exactly boo, baz and foos, all "allow", after the Revoke of far and
faz. -/
theorem scenario_get :
    ACL.Get scenarioGrant "service1" "object1" "1" "john"
      = (⟨"service1", "object1", "1", "john",
          [("faz", .str "allow"), ("boo", .str "allow"), ("baz", .str "allow")]⟩, none) ∧
    (ACL.Get scenarioGrantMore "service1" "object1" "1" "john"
      = (⟨"service1", "object1", "1", "john",
          [("faz", .str "allow"), ("boo", .str "allow"), ("baz", .str "allow"),
           ("far", .str "allow"), ("foos", .str "allow")]⟩, none) ∧
      (ACL.Get scenarioGrantMore "service1" "object1" "1" "john").1.Privileges.length = 5) ∧
    (ACL.Get scenarioDeny "service1" "object1" "1" "john"
      = (⟨"service1", "object1", "1", "john",
          [("faz", .str "allow"), ("boo", .str "allow"), ("baz", .str "allow"),
           ("far", .str "deny"), ("foos", .str "allow")]⟩, none) ∧
      (ACL.Get scenarioDeny "service1" "object1" "1" "john").1.Privileges.length = 5) ∧
    (ACL.Get scenarioRevoke "service1" "object1" "1" "john"
      = (⟨"service1", "object1", "1", "john",
          [("boo", .str "allow"), ("baz", .str "allow"), ("foos", .str "allow")]⟩, none) ∧
      (ACL.Get scenarioRevoke "service1" "object1" "1" "john").1.Privileges.length = 3) := by
  refine ⟨rfl, ⟨rfl, rfl⟩, ⟨rfl, rfl⟩, ⟨rfl, rfl⟩⟩

theorem mem_distinct_all (c : Collection) (key : String) (x : String) :
    x ∈ (Query.Distinct c key).1 ↔ ∃ a ∈ c, mapGet a.toDoc key = some (.str x) := by
  unfold Query.Distinct
  simp only [List.mem_dedup, List.mem_filterMap]
  constructor
  · rintro ⟨a, ha, h⟩
    refine ⟨a, ha, ?_⟩
    split at h
    · rename_i s hs
      simp only [Option.some.injEq] at h
      rw [hs, h]
    · simp at h
  · rintro ⟨a, ha, h⟩
    exact ⟨a, ha, by rw [h]⟩

/-- C15: ListServices returns every service that occurs in some record, each once, and
nothing else; ListObjects of a service returns every object that occurs in some record
of that service, each once, and nothing else. -/
theorem list_services_objects (c : Collection) (service : String) :
    ((ACL.ListServices c).2 = none ∧ (ACL.ListServices c).1.Nodup ∧
      (∀ s, s ∈ (ACL.ListServices c).1 ↔ ∃ a ∈ c, a.Service = s) ∧
      (∀ s, (∃ a ∈ c, a.Service = s) → (ACL.ListServices c).1.count s = 1)) ∧
    ((ACL.ListObjects c service).2 = none ∧ (ACL.ListObjects c service).1.Nodup ∧
      (∀ o, o ∈ (ACL.ListObjects c service).1 ↔
        ∃ a ∈ c, a.Service = service ∧ a.Object = o) ∧
      (∀ o, (∃ a ∈ c, a.Service = service ∧ a.Object = o) →
        (ACL.ListObjects c service).1.count o = 1)) := by
  have hs : ∀ s, s ∈ (ACL.ListServices c).1 ↔ ∃ a ∈ c, a.Service = s := by
    intro s
    unfold ACL.ListServices
    rw [mem_distinct_all]
    simp [Collection.Find, matchesSelector, ACL.toDoc, mapGet]
  have ho : ∀ o, o ∈ (ACL.ListObjects c service).1 ↔
      ∃ a ∈ c, a.Service = service ∧ a.Object = o := by
    intro o
    unfold ACL.ListObjects
    rw [mem_distinct_all]
    simp only [Collection.Find, List.mem_filter, matchesSelector_iff, List.mem_singleton,
      forall_eq, fieldPath_service, pathMatches_service]
    simp [ACL.toDoc, mapGet, and_assoc]
  have hns : (ACL.ListServices c).1.Nodup := by
    unfold ACL.ListServices Query.Distinct
    exact List.nodup_dedup _
  have hno : (ACL.ListObjects c service).1.Nodup := by
    unfold ACL.ListObjects Query.Distinct
    exact List.nodup_dedup _
  refine ⟨⟨rfl, hns, hs, ?_⟩, ⟨rfl, hno, ho, ?_⟩⟩
  · intro s h
    exact List.count_eq_one_of_mem hns ((hs s).mpr h)
  · intro o h
    exact List.count_eq_one_of_mem hno ((ho o).mpr h)

/-- C19, the code at its index: EnsureIndex asks for a unique index on the fields
`Service`, `Object`, `Key`, `User`, while the selectors and updates of Grant, Deny and
Set write the fields `service`, `object`, `key`, `user`; no field of the index is a
field the engine writes. -/
theorem ensureIndex_fields :
    ACL.EnsureIndex.Key = ["Service", "Object", "Key", "User"] ∧
    ACL.EnsureIndex.Unique = true ∧
    mapKeys (grantUpdate "s" "o" "k" "u" []) = ["service", "object", "key", "user"] ∧
    mapKeys (ACL.toDoc ⟨"s", "o", "k", "u", []⟩)
      = ["service", "object", "key", "user", "privileges"] ∧
    (∀ f ∈ ACL.EnsureIndex.Key, f ∉ mapKeys (ACL.toDoc ⟨"s", "o", "k", "u", []⟩)) := by
  refine ⟨rfl, rfl, by decide, rfl, by decide⟩

theorem grantUpdate_eq (service object key user : String) (ps : List String) :
    grantUpdate service object key user ps
      = tupleSelector service object key user ++ privFields ps (.str "allow") := by
  unfold grantUpdate
  simp only [copyMap_tuple]
  exact privFoldl_tuple service object key user (.str "allow") ps

theorem nodup_of_nodup_keys (m : M) (h : (mapKeys m).Nodup) : m.Nodup :=
  List.Nodup.of_map _ h

/-- C20: Grant issues one upsert; its selector has exactly the four entries service,
object, key and user; its `$set` document has exactly these four entries and one entry
`"privileges." + n` with value "allow" for each listed name `n`, one entry per key; and
for two lists with the same names, in any order and with any repetition, the `$set`
documents hold the same entries. -/
theorem grant_update_shape (c : Collection) (service object key user : String)
    (ps : List String) :
    ACL.Grant c service object key user ps
      = Collection.Upsert c (tupleSelector service object key user)
          [("$set", .doc (grantUpdate service object key user ps))] ∧
    tupleSelector service object key user
      = [("service", .str service), ("object", .str object), ("key", .str key),
         ("user", .str user)] ∧
    (∀ e, e ∈ grantUpdate service object key user ps ↔
      e ∈ tupleSelector service object key user ∨
        ∃ n ∈ ps, e = ("privileges." ++ n, .str "allow")) ∧
    (mapKeys (grantUpdate service object key user ps)).Nodup ∧
    (∀ ps' : List String, (∀ n, n ∈ ps ↔ n ∈ ps') →
      (grantUpdate service object key user ps).Perm
        (grantUpdate service object key user ps')) := by
  have hmem : ∀ (qs : List String) e, e ∈ grantUpdate service object key user qs ↔
      e ∈ tupleSelector service object key user ∨
        ∃ n ∈ qs, e = ("privileges." ++ n, .str "allow") := by
    intro qs e
    rw [grantUpdate_eq, List.mem_append, mem_privFields]
  have hnd : ∀ qs : List String, (mapKeys (grantUpdate service object key user qs)).Nodup := by
    intro qs
    rw [grantUpdate_eq]
    exact nodup_setFields service object key user qs (.str "allow")
  refine ⟨rfl, rfl, hmem ps, hnd ps, ?_⟩
  intro ps' hsame
  rw [List.perm_ext_iff_of_nodup (nodup_of_nodup_keys _ (hnd ps))
    (nodup_of_nodup_keys _ (hnd ps'))]
  intro e
  rw [hmem ps, hmem ps']
  constructor
  · rintro (h | ⟨n, hn, he⟩)
    · exact Or.inl h
    · exact Or.inr ⟨n, (hsame n).mp hn, he⟩
  · rintro (h | ⟨n, hn, he⟩)
    · exact Or.inl h
    · exact Or.inr ⟨n, (hsame n).mpr hn, he⟩

/-! ## Upserts with arbitrary arguments -/

theorem upsertDocs_some (service object key user : String) (U : M) (c c' : Collection)
    (h : upsertDocs (tupleSelector service object key user) U c = some c') :
    c' = upsertWith service object key user (updatedRecord U)
      (insertedRecord service object key user U) c := by
  induction c generalizing c' with
  | nil =>
    simp only [upsertDocs, Option.map_eq_some'] at h
    obtain ⟨d, hd, rfl⟩ := h
    simp [upsertWith, insertedRecord, hd]
  | cons a t ih =>
    by_cases ht : isTuple service object key user a = true
    · simp only [upsertDocs, matches_tupleSelector, ht, if_true, Option.map_eq_some'] at h
      obtain ⟨d, hd, rfl⟩ := h
      simp [upsertWith, ht, updatedRecord, hd]
    · simp only [Bool.not_eq_true] at ht
      simp only [upsertDocs, matches_tupleSelector, ht, Option.map_eq_some'] at h
      simp only [Bool.false_eq_true, if_false, Option.map_eq_some'] at h
      obtain ⟨rest', hrest, rfl⟩ := h
      simp [upsertWith, ht, ih rest' hrest]

theorem upsert_fst (c : Collection) (service object key user : String) (U : M) :
    (Collection.Upsert c (tupleSelector service object key user) U).1 = c ∨
    (Collection.Upsert c (tupleSelector service object key user) U).1
      = upsertWith service object key user (updatedRecord U)
          (insertedRecord service object key user U) c := by
  unfold Collection.Upsert
  cases h : upsertDocs (tupleSelector service object key user) U c with
  | none => exact Or.inl rfl
  | some c' => exact Or.inr (upsertDocs_some service object key user U c c' h)

theorem mem_upsertWith (service object key user : String) (f : ACL → ACL) (a0 : ACL)
    (c : Collection) (x : ACL) (hx : x ∈ upsertWith service object key user f a0 c) :
    x ∈ c ∨ x = a0 ∨ ∃ a ∈ c, isTuple service object key user a = true ∧ x = f a := by
  induction c with
  | nil =>
    simp only [upsertWith, List.mem_singleton] at hx
    exact Or.inr (Or.inl hx)
  | cons a t ih =>
    by_cases ht : isTuple service object key user a = true
    · simp only [upsertWith, ht, if_true, List.mem_cons] at hx
      rcases hx with hx | hx
      · exact Or.inr (Or.inr ⟨a, List.mem_cons_self _ _, ht, hx⟩)
      · exact Or.inl (List.mem_cons_of_mem _ hx)
    · simp only [Bool.not_eq_true] at ht
      simp only [upsertWith, ht, Bool.false_eq_true, if_false, List.mem_cons] at hx
      rcases hx with hx | hx
      · exact Or.inl (by rw [hx]; exact List.mem_cons_self _ _)
      · rcases ih hx with h | h | ⟨b, hb, hbt, hxb⟩
        · exact Or.inl (List.mem_cons_of_mem _ h)
        · exact Or.inr (Or.inl h)
        · exact Or.inr (Or.inr ⟨b, List.mem_cons_of_mem _ hb, hbt, hxb⟩)

theorem applyUpdate_set_some (fs d D : M)
    (h : applyUpdate [("$set", .doc fs)] d = some D) : applySet fs d = some D := by
  have hop : isOperatorKey "$set" = true := by decide
  unfold applyUpdate at h
  simp only [List.any_cons, List.any_nil, List.all_cons, List.all_nil, hop, Bool.or_false,
    Bool.and_true, if_true] at h
  split at h
  · simp only [applyOperators, if_true] at h
    cases hs : applySet fs d with
    | none => rw [hs] at h; simp at h
    | some d' => rw [hs] at h; simpa using h
  · simp at h

theorem applyUpdate_unset_some (fs d D : M)
    (h : applyUpdate [("$unset", .doc fs)] d = some D) : D = applyUnset fs d := by
  have hop : isOperatorKey "$unset" = true := by decide
  have hne : ¬ "$unset" = "$set" := by decide
  unfold applyUpdate at h
  simp only [List.any_cons, List.any_nil, List.all_cons, List.all_nil, hop, Bool.or_false,
    Bool.and_true, if_true] at h
  split at h
  · simp only [applyOperators, if_neg hne, if_true, Option.some.injEq] at h
    exact h.symm
  · simp at h

/-- The coordinates of the record of a document depend on its four coordinate fields
only. -/
theorem isTuple_ofDoc_congr (service object key user : String) (d d' : M)
    (h1 : mapGet d' "service" = mapGet d "service")
    (h2 : mapGet d' "object" = mapGet d "object")
    (h3 : mapGet d' "key" = mapGet d "key")
    (h4 : mapGet d' "user" = mapGet d "user") :
    isTuple service object key user (ACL.ofDoc d')
      = isTuple service object key user (ACL.ofDoc d) := by
  simp [isTuple, ACL.ofDoc, stringField, h1, h2, h3, h4]

theorem setField_privileges_other (d d' : M) (rest : List String) (v : Value)
    (h : setField d ("privileges" :: rest) v = some d') (k : String)
    (hk : k ≠ "privileges") : mapGet d' k = mapGet d k := by
  unfold setField at h
  simp only [setValue] at h
  cases hs : setValue rest v (mapGet d "privileges") with
  | none => rw [hs] at h; simp at h
  | some x =>
    rw [hs] at h
    simp only [Option.map_some', Option.some.injEq] at h
    subst h
    rw [mapGet_mapSet, if_neg hk]

theorem fieldPath_cons (p : String) : ∃ k ks, fieldPath p = k :: ks := by
  unfold fieldPath
  have : ∀ cs : List Char, splitDots cs ≠ [] := by
    intro cs
    cases cs with
    | nil => simp [splitDots]
    | cons c t =>
      simp only [splitDots]
      split
      · simp
      · split <;> simp
  cases h : splitDots p.toList with
  | nil => exact absurd h (this _)
  | cons a t => exact ⟨_, _, rfl⟩

theorem unsetValue_doc (k : String) (ks : List String) (P : M) :
    unsetValue (k :: ks) (.doc P) = .doc (unsetIn P (k :: ks)) := by
  unfold unsetIn
  cases ks with
  | nil => simp [unsetValue]
  | cons k' ks' =>
    simp only [unsetValue]
    cases mapGet P k <;> rfl

theorem unsetField_privileges (a : ACL) (k : String) (ks : List String) :
    unsetField a.toDoc ("privileges" :: k :: ks)
      = ({ a with Privileges := unsetIn a.Privileges (k :: ks) } : ACL).toDoc := by
  simp [unsetField, unsetValue, ACL.toDoc, mapGet, unsetValue_doc, mapSet, mapDelete]

theorem unsetField_privileges_seed (service object key user k : String)
    (ks : List String) :
    unsetField (tupleSelector service object key user) ("privileges" :: k :: ks)
      = tupleSelector service object key user := by
  simp [unsetField, unsetValue, tupleSelector, mapGet]

theorem recordsOf_upsertWith_other (service object key user : String) (f : ACL → ACL)
    (a0 : ACL)
    (hf : ∀ a, isTuple service object key user a = true →
      isTuple service object key user (f a) = true)
    (h0 : isTuple service object key user a0 = true)
    (s' o' k' u' : String)
    (hne : ¬ (s' = service ∧ o' = object ∧ k' = key ∧ u' = user)) (c : Collection) :
    recordsOf (upsertWith service object key user f a0 c) s' o' k' u'
      = recordsOf c s' o' k' u' := by
  have hoff : ∀ x, isTuple service object key user x = true →
      isTuple s' o' k' u' x = false := by
    intro x hx
    rw [isTuple_iff] at hx
    obtain ⟨h1, h2, h3, h4⟩ := hx
    rw [Bool.eq_false_iff]
    intro hx'
    rw [isTuple_iff] at hx'
    obtain ⟨g1, g2, g3, g4⟩ := hx'
    exact hne ⟨g1 ▸ h1, g2 ▸ h2, g3 ▸ h3, g4 ▸ h4⟩
  induction c with
  | nil => simp [recordsOf, upsertWith, hoff a0 h0]
  | cons a t ih =>
    by_cases ht : isTuple service object key user a = true
    · simp [recordsOf, upsertWith, ht, hoff a ht, hoff (f a) (hf a ht)]
    · simp only [Bool.not_eq_true] at ht
      simp only [recordsOf] at ih
      simp [recordsOf, upsertWith, ht, List.filter_cons, ih]

theorem atMostOne_upsertWith (service object key user : String) (f : ACL → ACL) (a0 : ACL)
    (hf : ∀ a, isTuple service object key user a = true →
      isTuple service object key user (f a) = true)
    (h0 : isTuple service object key user a0 = true) (c : Collection)
    (s' o' k' u' : String) (h : atMostOne c s' o' k' u') :
    atMostOne (upsertWith service object key user f a0 c) s' o' k' u' := by
  unfold atMostOne at h ⊢
  by_cases hsame : s' = service ∧ o' = object ∧ k' = key ∧ u' = user
  · obtain ⟨h1, h2, h3, h4⟩ := hsame
    subst h1 h2 h3 h4
    rw [recordsOf_upsertWith _ _ _ _ _ _ hf h0]
    cases hr : recordsOf c s' o' k' u' with
    | nil => simp
    | cons a rest =>
      rw [hr] at h
      simpa using h
  · rw [recordsOf_upsertWith_other _ _ _ _ _ _ hf h0 _ _ _ _ hsame]
    exact h

theorem setField_coordinate (service object key user : String) (d : M)
    (e : String × Value) (he : e ∈ tupleSelector service object key user)
    (hd : isTuple service object key user (ACL.ofDoc d) = true) :
    ∃ d', setField d (fieldPath e.1) e.2 = some d' ∧
      isTuple service object key user (ACL.ofDoc d') = true := by
  simp only [isTuple, ACL.ofDoc, decide_eq_true_eq] at hd
  obtain ⟨h1, h2, h3, h4⟩ := hd
  simp only [tupleSelector, List.mem_cons, List.mem_singleton, List.not_mem_nil,
    or_false] at he
  rcases he with he | he | he | he <;> subst he
  · refine ⟨mapSet d "service" (.str service), ?_, ?_⟩
    · simp [setField, setValue, fieldPath_service]
    · simp only [isTuple, ACL.ofDoc, stringField, mapGet_mapSet, decide_eq_true_eq]
      simp only [stringField] at h2 h3 h4
      simp [h2, h3, h4]
  · refine ⟨mapSet d "object" (.str object), ?_, ?_⟩
    · simp [setField, setValue, fieldPath_object]
    · simp only [isTuple, ACL.ofDoc, stringField, mapGet_mapSet, decide_eq_true_eq]
      simp only [stringField] at h1 h3 h4
      simp [h1, h3, h4]
  · refine ⟨mapSet d "key" (.str key), ?_, ?_⟩
    · simp [setField, setValue, fieldPath_key]
    · simp only [isTuple, ACL.ofDoc, stringField, mapGet_mapSet, decide_eq_true_eq]
      simp only [stringField] at h1 h2 h4
      simp [h1, h2, h4]
  · refine ⟨mapSet d "user" (.str user), ?_, ?_⟩
    · simp [setField, setValue, fieldPath_user]
    · simp only [isTuple, ACL.ofDoc, stringField, mapGet_mapSet, decide_eq_true_eq]
      simp only [stringField] at h1 h2 h3
      simp [h1, h2, h3]

theorem tuple_applySet (service object key user : String) (fs : M)
    (hfs : ∀ e ∈ fs, e ∈ tupleSelector service object key user ∨
      ∃ p : String, e.1 = "privileges." ++ p)
    (d D : M) (h : applySet fs d = some D)
    (hd : isTuple service object key user (ACL.ofDoc d) = true) :
    isTuple service object key user (ACL.ofDoc D) = true := by
  induction fs generalizing d with
  | nil =>
    simp only [applySet, Option.some.injEq] at h
    rw [← h]; exact hd
  | cons hd' t ih =>
    obtain ⟨k, v⟩ := hd'
    have ht : ∀ e ∈ t, e ∈ tupleSelector service object key user ∨
        ∃ p : String, e.1 = "privileges." ++ p :=
      fun e he => hfs e (List.mem_cons_of_mem _ he)
    simp only [applySet] at h
    rcases hfs (k, v) (List.mem_cons_self _ _) with he | ⟨p, hp⟩
    · obtain ⟨d', hd1, hd2⟩ := setField_coordinate service object key user d (k, v) he hd
      simp only at hd1
      rw [hd1] at h
      exact ih ht d' h hd2
    · simp only at hp
      subst hp
      cases hs : setField d (fieldPath ("privileges." ++ p)) v with
      | none => rw [hs] at h; simp at h
      | some d' =>
        rw [hs] at h
        rw [fieldPath_privileges] at hs
        have hsame : isTuple service object key user (ACL.ofDoc d')
            = isTuple service object key user (ACL.ofDoc d) :=
          isTuple_ofDoc_congr service object key user d d'
            (setField_privileges_other d d' _ v hs "service" (by decide))
            (setField_privileges_other d d' _ v hs "object" (by decide))
            (setField_privileges_other d d' _ v hs "key" (by decide))
            (setField_privileges_other d d' _ v hs "user" (by decide))
        exact ih ht d' h (hsame.trans hd)

theorem setFields_shape (service object key user : String) (ps : List String) (v : Value) :
    ∀ e ∈ tupleSelector service object key user ++ privFields ps v,
      e ∈ tupleSelector service object key user ∨ ∃ p : String, e.1 = "privileges." ++ p := by
  intro e he
  rcases List.mem_append.mp he with h | h
  · exact Or.inl h
  · obtain ⟨p, _, rfl⟩ := (mem_privFields ps v e).mp h
    exact Or.inr ⟨p, rfl⟩

theorem isTuple_seed (service object key user : String) :
    isTuple service object key user (ACL.ofDoc (tupleSelector service object key user))
      = true := by
  simp [isTuple, ACL.ofDoc, tupleSelector, stringField, mapGet]

theorem isTuple_toDoc (service object key user : String) (a : ACL)
    (h : isTuple service object key user a = true) :
    isTuple service object key user (ACL.ofDoc a.toDoc) = true := by
  rw [ACL.ofDoc_toDoc]; exact h

/-- A `$set` upsert of the engine, with any privilege names, keeps the tuple of the record
it changes and inserts a record of the tuple. -/
theorem set_keeps_tuple (service object key user : String) (ps : List String) (v : Value) :
    (∀ a, isTuple service object key user a = true →
      isTuple service object key user
        (updatedRecord [("$set", .doc (tupleSelector service object key user
          ++ privFields ps v))] a) = true) ∧
    isTuple service object key user
      (insertedRecord service object key user
        [("$set", .doc (tupleSelector service object key user ++ privFields ps v))]) = true := by
  constructor
  · intro a ha
    unfold updatedRecord
    split
    · rename_i D hD
      exact tuple_applySet service object key user _
        (setFields_shape service object key user ps v) _ D
        (applyUpdate_set_some _ _ _ hD) (isTuple_toDoc _ _ _ _ a ha)
    · exact ha
  · unfold insertedRecord
    split
    · rename_i D hD
      unfold insertedDoc at hD
      rw [selectorSeed_tuple] at hD
      simp only [Option.bind] at hD
      exact tuple_applySet service object key user _
        (setFields_shape service object key user ps v) _ D
        (applyUpdate_set_some _ _ _ hD) (isTuple_seed service object key user)
    · exact isTuple_mk _ _ _ _ _

theorem applyUnset_any (X : M) (a : ACL)
    (hX : ∀ e ∈ X, ∃ p : String, e.1 = "privileges." ++ p) :
    applyUnset X a.toDoc
      = ({ a with Privileges :=
            X.foldl (fun P e => unsetIn P (fieldPath (privName e.1))) a.Privileges } : ACL).toDoc := by
  induction X generalizing a with
  | nil => rfl
  | cons hd t ih =>
    obtain ⟨k, v⟩ := hd
    obtain ⟨p, hp⟩ := hX (k, v) (List.mem_cons_self _ _)
    simp only at hp
    subst hp
    obtain ⟨k1, ks, hk⟩ := fieldPath_cons p
    simp only [applyUnset, fieldPath_privileges, hk, unsetField_privileges]
    rw [ih _ (fun e he => hX e (List.mem_cons_of_mem _ he))]
    simp [privName_priv, hk]

theorem applyUnset_any_seed (service object key user : String) (X : M)
    (hX : ∀ e ∈ X, ∃ p : String, e.1 = "privileges." ++ p) :
    applyUnset X (tupleSelector service object key user)
      = tupleSelector service object key user := by
  induction X with
  | nil => rfl
  | cons hd t ih =>
    obtain ⟨k, v⟩ := hd
    obtain ⟨p, hp⟩ := hX (k, v) (List.mem_cons_self _ _)
    simp only at hp
    subst hp
    obtain ⟨k1, ks, hk⟩ := fieldPath_cons p
    simp only [applyUnset, fieldPath_privileges, hk, unsetField_privileges_seed]
    exact ih (fun e he => hX e (List.mem_cons_of_mem _ he))

theorem privFields_keys (ps : List String) (v : Value) :
    ∀ e ∈ privFields ps v, ∃ p : String, e.1 = "privileges." ++ p := by
  intro e he
  obtain ⟨p, _, rfl⟩ := (mem_privFields ps v e).mp he
  exact ⟨p, rfl⟩

/-- The `$unset` upsert of Revoke, with any privilege names: what becomes of a record,
and what is inserted. -/
theorem unset_records (service object key user : String) (ps : List String) (v : Value) :
    (∀ a, updatedRecord [("$unset", .doc (privFields ps v))] a = a ∨
      updatedRecord [("$unset", .doc (privFields ps v))] a
        = ({ a with Privileges := (List.foldl
            (fun P e => unsetIn P (fieldPath (privName e.1))) a.Privileges
            (privFields ps v)) } : ACL)) ∧
    insertedRecord service object key user [("$unset", .doc (privFields ps v))]
      = ⟨service, object, key, user, []⟩ := by
  constructor
  · intro a
    unfold updatedRecord
    split
    · rename_i D hD
      right
      rw [applyUpdate_unset_some _ _ _ hD, applyUnset_any _ _ (privFields_keys ps v),
        ACL.ofDoc_toDoc]
    · exact Or.inl rfl
  · unfold insertedRecord
    split
    · rename_i D hD
      unfold insertedDoc at hD
      rw [selectorSeed_tuple] at hD
      simp only [Option.bind] at hD
      rw [applyUpdate_unset_some _ _ _ hD,
        applyUnset_any_seed _ _ _ _ _ (privFields_keys ps v)]
      simp [ACL.ofDoc, tupleSelector, stringField, mapGet]
    · rfl

theorem unset_keeps_tuple (service object key user : String) (ps : List String)
    (v : Value) :
    (∀ a, isTuple service object key user a = true →
      isTuple service object key user
        (updatedRecord [("$unset", .doc (privFields ps v))] a) = true) ∧
    isTuple service object key user
      (insertedRecord service object key user [("$unset", .doc (privFields ps v))]) = true := by
  obtain ⟨h1, h2⟩ := unset_records service object key user ps v
  constructor
  · intro a ha
    rcases h1 a with h | h
    · rw [h]; exact ha
    · rw [h]; exact isTuple_with _ _ _ _ a _ ha
  · rw [h2]; exact isTuple_mk _ _ _ _ _

theorem grant_fst (c : Collection) (service object key user : String) (ps : List String) :
    (ACL.Grant c service object key user ps).1
      = (Collection.Upsert c (tupleSelector service object key user)
          [("$set", .doc (tupleSelector service object key user
            ++ privFields ps (.str "allow")))]).1 := by
  unfold ACL.Grant
  simp only [copyMap_tuple]
  rw [privFoldl_tuple]
  rfl

theorem deny_fst (c : Collection) (service object key user : String) (ps : List String) :
    (ACL.Deny c service object key user ps).1
      = (Collection.Upsert c (tupleSelector service object key user)
          [("$set", .doc (tupleSelector service object key user
            ++ privFields ps (.str "deny")))]).1 := by
  unfold ACL.Deny
  simp only [copyMap_tuple]
  rw [privFoldl_tuple]
  rfl

theorem revoke_fst (c : Collection) (service object key user : String) (ps : List String) :
    (ACL.Revoke c service object key user ps).1
      = (Collection.Upsert c (tupleSelector service object key user)
          [("$unset", .doc (privFields ps (.str "")))]).1 := rfl

theorem call_keeps_unique (call : Call) (c : Collection)
    (h : ∀ s o k u, atMostOne c s o k u) : ∀ s o k u, atMostOne (call.run c) s o k u := by
  intro s' o' k' u'
  cases call with
  | grant service object key user ps =>
    simp only [Call.run, grant_fst]
    obtain ⟨hf, h0⟩ := set_keeps_tuple service object key user ps (.str "allow")
    rcases upsert_fst c service object key user
      [("$set", .doc (tupleSelector service object key user
        ++ privFields ps (.str "allow")))] with hu | hu
    · rw [hu]; exact h _ _ _ _
    · rw [hu]; exact atMostOne_upsertWith _ _ _ _ _ _ hf h0 c _ _ _ _ (h _ _ _ _)
  | deny service object key user ps =>
    simp only [Call.run, deny_fst]
    obtain ⟨hf, h0⟩ := set_keeps_tuple service object key user ps (.str "deny")
    rcases upsert_fst c service object key user
      [("$set", .doc (tupleSelector service object key user
        ++ privFields ps (.str "deny")))] with hu | hu
    · rw [hu]; exact h _ _ _ _
    · rw [hu]; exact atMostOne_upsertWith _ _ _ _ _ _ hf h0 c _ _ _ _ (h _ _ _ _)
  | revoke service object key user ps =>
    simp only [Call.run, revoke_fst]
    obtain ⟨hf, h0⟩ := unset_keeps_tuple service object key user ps (.str "")
    rcases upsert_fst c service object key user
      [("$unset", .doc (privFields ps (.str "")))] with hu | hu
    · rw [hu]; exact h _ _ _ _
    · rw [hu]; exact atMostOne_upsertWith _ _ _ _ _ _ hf h0 c _ _ _ _ (h _ _ _ _)
  | set service object key user m =>
    simp only [Call.run, set_eq]
    exact atMostOne_upsertWith _ _ _ _ _ _ (fun _ _ => isTuple_mk _ _ _ _ _)
      (isTuple_mk _ _ _ _ _) c _ _ _ _ (h _ _ _ _)

theorem calls_keep_unique (calls : List Call) (c : Collection)
    (h : ∀ s o k u, atMostOne c s o k u) :
    ∀ s o k u, atMostOne (runCalls calls c) s o k u := by
  induction calls generalizing c with
  | nil => exact h
  | cons call rest ih =>
    simp only [runCalls, List.foldl_cons]
    exact ih (call.run c) (call_keeps_unique call c h)

/-- C12: in every collection reached from the empty one by calls of Grant, Deny, Revoke
and Set, one after another and with any arguments, at most one record carries a given
tuple (service, object, key, user). -/
theorem reachable_unique (calls : List Call) (service object key user : String) :
    atMostOne (runCalls calls []) service object key user :=
  calls_keep_unique calls [] (fun _ _ _ _ => by simp [atMostOne, recordsOf]) _ _ _ _

/-! ## Value domain and emptied records -/

theorem mem_setPrivs (X P : M) (e : String × Value) (he : e ∈ setPrivs P X) :
    e ∈ P ∨ ∃ f ∈ X, e.2 = f.2 := by
  induction X generalizing P with
  | nil => exact Or.inl he
  | cons f t ih =>
    simp only [setPrivs, List.foldl_cons] at he
    rcases ih (mapSet P (privName f.1) f.2) he with h | ⟨g, hg, hge⟩
    · rw [mem_mapSet] at h
      rcases h with h | h
      · exact Or.inr ⟨f, List.mem_cons_self _ _, by rw [h]⟩
      · exact Or.inl h.1
    · exact Or.inr ⟨g, List.mem_cons_of_mem _ hg, hge⟩

theorem flags_setPrivs (P : M) (ps : List String) (v : Value) (hv : IsFlag v)
    (hP : ∀ e ∈ P, IsFlag e.2) : ∀ e ∈ setPrivs P (privFields ps v), IsFlag e.2 := by
  intro e he
  rcases mem_setPrivs _ _ e he with h | ⟨f, hf, hfe⟩
  · exact hP e h
  · obtain ⟨p, _, rfl⟩ := (mem_privFields ps v f).mp hf
    rw [hfe]; exact hv

theorem flags_unsetIn (P : M) (path : List String) (hP : ∀ e ∈ P, IsFlag e.2) :
    ∀ e ∈ unsetIn P path, IsFlag e.2 := by
  intro e he
  unfold unsetIn at he
  match path with
  | [] => simp only [unsetValue] at he; exact hP e he
  | [k] =>
    simp only [unsetValue] at he
    exact hP e ((mem_mapDelete P k e).mp he).1
  | k :: k' :: ks =>
    simp only [unsetValue] at he
    cases hg : mapGet P k with
    | none => rw [hg] at he; exact hP e he
    | some w =>
      rw [hg] at he
      simp only at he
      have hw : IsFlag w := hP (k, w) (mapGet_mem P k w hg)
      have hsame : unsetValue (k' :: ks) w = w := by
        rcases hw with h | h <;> subst h <;> simp [unsetValue]
      rw [hsame, mem_mapSet] at he
      rcases he with h | h
      · rw [h]; exact hw
      · exact hP e h.1

theorem flags_unsetFold (X : M) (P : M) (hP : ∀ e ∈ P, IsFlag e.2) :
    ∀ e ∈ List.foldl (fun P e => unsetIn P (fieldPath (privName e.1))) P X, IsFlag e.2 := by
  induction X generalizing P with
  | nil => exact hP
  | cons f t ih =>
    simp only [List.foldl_cons]
    exact ih _ (flags_unsetIn P _ hP)

theorem set_records_nodot (service object key user : String) (ps : List String)
    (v : Value) (hps : ∀ p ∈ ps, '.' ∉ p.toList) :
    (∀ a, isTuple service object key user a = true →
      updatedRecord [("$set", .doc (tupleSelector service object key user
          ++ privFields ps v))] a = a ∨
      updatedRecord [("$set", .doc (tupleSelector service object key user
          ++ privFields ps v))] a
        = { a with Privileges := setPrivs a.Privileges (privFields ps v) }) ∧
    (insertedRecord service object key user
        [("$set", .doc (tupleSelector service object key user ++ privFields ps v))]
        = ⟨service, object, key, user, []⟩ ∨
      insertedRecord service object key user
        [("$set", .doc (tupleSelector service object key user ++ privFields ps v))]
        = ⟨service, object, key, user, setPrivs [] (privFields ps v)⟩) := by
  have hshape : ∀ e ∈ privFields ps v,
      ∃ p : String, '.' ∉ p.toList ∧ e.1 = "privileges." ++ p := by
    intro e he
    obtain ⟨p, hp, rfl⟩ := (mem_privFields ps v e).mp he
    exact ⟨p, hps p hp, rfl⟩
  constructor
  · intro a ha
    unfold updatedRecord
    split
    · rename_i D hD
      right
      have h1 := applyUpdate_set_some _ _ _ hD
      rw [applySet_append, applySet_tuple service object key user a ha] at h1
      simp only [Option.bind] at h1
      rw [applySet_privs _ _ hshape] at h1
      simp only [Option.some.injEq] at h1
      rw [← h1, ACL.ofDoc_toDoc]
    · exact Or.inl rfl
  · unfold insertedRecord
    split
    · rename_i D hD
      right
      unfold insertedDoc at hD
      rw [selectorSeed_tuple] at hD
      simp only [Option.bind] at hD
      have h1 := applyUpdate_set_some _ _ _ hD
      rw [applySet_append, applySet_tuple_seed] at h1
      simp only [Option.bind] at h1
      obtain ⟨D', hD', hDa⟩ := applySet_privs_seed service object key user _ hshape
      rw [hD'] at h1
      simp only [Option.some.injEq] at h1
      rw [← h1, hDa]
    · exact Or.inl rfl

theorem flags_upsertWith (service object key user : String) (f : ACL → ACL) (a0 : ACL)
    (c : Collection) (hc : ∀ a ∈ c, ∀ e ∈ a.Privileges, IsFlag e.2)
    (hf : ∀ a ∈ c, isTuple service object key user a = true →
      ∀ e ∈ (f a).Privileges, IsFlag e.2)
    (h0 : ∀ e ∈ a0.Privileges, IsFlag e.2) :
    ∀ a ∈ upsertWith service object key user f a0 c, ∀ e ∈ a.Privileges, IsFlag e.2 := by
  intro x hx
  rcases mem_upsertWith _ _ _ _ _ _ c x hx with h | h | ⟨a, ha, hat, hxa⟩
  · exact hc x h
  · rw [h]; exact h0
  · rw [hxa]; exact hf a ha hat

theorem call_keeps_flags (call : Call) (hcall : call.Flagged) (c : Collection)
    (hc : ∀ a ∈ c, ∀ e ∈ a.Privileges, IsFlag e.2) :
    ∀ a ∈ call.run c, ∀ e ∈ a.Privileges, IsFlag e.2 := by
  cases call with
  | grant service object key user ps =>
    simp only [Call.run, grant_fst]
    obtain ⟨h1, h2⟩ := set_records_nodot service object key user ps (.str "allow") hcall
    rcases upsert_fst c service object key user
      [("$set", .doc (tupleSelector service object key user
        ++ privFields ps (.str "allow")))] with hu | hu
    · rw [hu]; exact hc
    · rw [hu]
      apply flags_upsertWith _ _ _ _ _ _ c hc
      · intro a ha hat
        rcases h1 a hat with h | h
        · rw [h]; exact hc a ha
        · rw [h]; exact flags_setPrivs _ ps _ (Or.inl rfl) (hc a ha)
      · rcases h2 with h | h
        · rw [h]; simp
        · rw [h]; exact flags_setPrivs _ ps _ (Or.inl rfl) (by simp)
  | deny service object key user ps =>
    simp only [Call.run, deny_fst]
    obtain ⟨h1, h2⟩ := set_records_nodot service object key user ps (.str "deny") hcall
    rcases upsert_fst c service object key user
      [("$set", .doc (tupleSelector service object key user
        ++ privFields ps (.str "deny")))] with hu | hu
    · rw [hu]; exact hc
    · rw [hu]
      apply flags_upsertWith _ _ _ _ _ _ c hc
      · intro a ha hat
        rcases h1 a hat with h | h
        · rw [h]; exact hc a ha
        · rw [h]; exact flags_setPrivs _ ps _ (Or.inr rfl) (hc a ha)
      · rcases h2 with h | h
        · rw [h]; simp
        · rw [h]; exact flags_setPrivs _ ps _ (Or.inr rfl) (by simp)
  | revoke service object key user ps =>
    simp only [Call.run, revoke_fst]
    obtain ⟨h1, h2⟩ := unset_records service object key user ps (.str "")
    rcases upsert_fst c service object key user
      [("$unset", .doc (privFields ps (.str "")))] with hu | hu
    · rw [hu]; exact hc
    · rw [hu]
      apply flags_upsertWith _ _ _ _ _ _ c hc
      · intro a ha _
        rcases h1 a with h | h
        · rw [h]; exact hc a ha
        · rw [h]; exact flags_unsetFold _ _ (hc a ha)
      · rw [h2]; simp
  | set service object key user m =>
    simp only [Call.run, set_eq]
    exact flags_upsertWith _ _ _ _ _ _ c hc (fun _ _ _ => hcall) hcall

theorem calls_keep_flags (calls : List Call) (hcalls : ∀ call ∈ calls, call.Flagged)
    (c : Collection) (hc : ∀ a ∈ c, ∀ e ∈ a.Privileges, IsFlag e.2) :
    ∀ a ∈ runCalls calls c, ∀ e ∈ a.Privileges, IsFlag e.2 := by
  induction calls generalizing c with
  | nil => exact hc
  | cons call rest ih =>
    simp only [runCalls, List.foldl_cons]
    exact ih (fun x hx => hcalls x (List.mem_cons_of_mem _ hx)) (call.run c)
      (call_keeps_flags call (hcalls call (List.mem_cons_self _ _)) c hc)

/-- C13 (amended): in every collection reached from the empty one by calls of Grant and
Deny with privilege names without a dot, calls of Set with a mapping whose values are
all "allow" or "deny", and any calls of Revoke, every value of every record's privilege
mapping is "allow" or "deny". -/
theorem reachable_flags (calls : List Call) (hcalls : ∀ call ∈ calls, call.Flagged) :
    ∀ a ∈ runCalls calls [], ∀ e ∈ a.Privileges, IsFlag e.2 :=
  calls_keep_flags calls hcalls [] (by simp)

/-- C13 witness: a Grant, a Set with flags, a Deny and a Revoke. -/
theorem reachable_flags_witness :
    (∀ call ∈ [Call.grant "s" "o" "1" "u" ["far"],
        Call.set "s" "o" "2" "u" [("faz", .str "deny")],
        Call.deny "s" "o" "2" "u" ["far"], Call.revoke "s" "o" "1" "u" ["x.y"]],
      call.Flagged) ∧
    ∀ a ∈ runCalls [Call.grant "s" "o" "1" "u" ["far"],
        Call.set "s" "o" "2" "u" [("faz", .str "deny")],
        Call.deny "s" "o" "2" "u" ["far"], Call.revoke "s" "o" "1" "u" ["x.y"]] [],
      ∀ e ∈ a.Privileges, IsFlag e.2 :=
  ⟨by simp [Call.Flagged, IsFlag],
    reachable_flags _ (by simp [Call.Flagged, IsFlag])⟩

/-- C13 as stated fails.  Set stores the mapping it is given: after the call of
`setPrivilegesHandler` on the body `[{key: "k", user: "u", privileges: {far: "maybe"}}]`
the record maps `far` to "maybe".  And Grant of `a.b` leaves the name `a` mapped to the
document `{b: "allow"}`. -/
theorem reachable_flags_counterexample :
    (setPrivilegesHandler ResponseWriter.fresh [] "s" "o"
        [[("key", .str "k"), ("user", .str "u"),
          ("privileges", .doc [("far", .str "maybe")])]]).2
      = [⟨"s", "o", "k", "u", [("far", .str "maybe")]⟩] ∧
    runCalls [Call.set "s" "o" "k" "u" [("far", .str "maybe")]] []
      = [⟨"s", "o", "k", "u", [("far", .str "maybe")]⟩] ∧
    ¬ IsFlag (.str "maybe") ∧
    runCalls [Call.grant "s" "o" "k" "u" ["a.b"]] []
      = [⟨"s", "o", "k", "u", [("a", .doc [("b", .str "allow")])]⟩] ∧
    ¬ IsFlag (.doc [("b", .str "allow")]) := by
  refine ⟨rfl, rfl, ?_, rfl, ?_⟩
  · simp [IsFlag]
  · simp [IsFlag]

theorem mem_unsetPrivs (X P : M) (e : String × Value) (he : e ∈ unsetPrivs P X) :
    e ∈ P ∧ ∀ f ∈ X, e.1 ≠ privName f.1 := by
  induction X generalizing P with
  | nil => exact ⟨he, by simp⟩
  | cons f t ih =>
    simp only [unsetPrivs, List.foldl_cons] at he
    obtain ⟨h1, h2⟩ := ih (mapDelete P (privName f.1)) he
    rw [mem_mapDelete] at h1
    refine ⟨h1.1, ?_⟩
    intro g hg
    rcases List.mem_cons.mp hg with rfl | hg
    · exact h1.2
    · exact h2 g hg

/-- C14 (amended): Revoke of a list of plain privilege names that contains every name of
the record Get shows for the tuple reports no error and empties the record without
deleting it: Get on the tuple then succeeds and returns the record with the same
service, object, key and user and an empty privilege mapping (this holds on every
collection, so in particular on one that holds a record of the tuple). -/
theorem revoke_all_empties (c : Collection) (service object key user : String)
    (ps : List String) (hps : ∀ p ∈ ps, PlainName p)
    (hall : ∀ e ∈ (ACL.Get c service object key user).1.Privileges, e.1 ∈ ps) :
    (ACL.Revoke c service object key user ps).2 = none ∧
    ACL.Get (ACL.Revoke c service object key user ps).1 service object key user
      = (⟨service, object, key, user, []⟩, none) := by
  rw [revoke_eq_after c service object key user ps hps]
  refine ⟨rfl, ?_⟩
  simp only
  rw [get_after c service object key user
    (fun P => unsetPrivs P (privFields ps (.str "")))]
  have hempty : unsetPrivs (ACL.Get c service object key user).1.Privileges
      (privFields ps (.str "")) = [] := by
    rw [List.eq_nil_iff_forall_not_mem]
    intro e he
    obtain ⟨h1, h2⟩ := mem_unsetPrivs _ _ e he
    have hp := hall e h1
    apply h2 ("privileges." ++ e.1, .str "")
      ((mem_privFields ps (.str "") _).mpr ⟨e.1, hp, rfl⟩)
    rw [privName_priv]
  rw [hempty]

/-- C14 witness: revoking every name of the record the scenario ends with. -/
theorem revoke_all_empties_witness :
    (ACL.Get scenarioRevoke "service1" "object1" "1" "john").2 = none ∧
    (∀ p ∈ ["boo", "baz", "foos"], PlainName p) ∧
    ACL.Get (ACL.Revoke scenarioRevoke "service1" "object1" "1" "john"
        ["boo", "baz", "foos"]).1 "service1" "object1" "1" "john"
      = (⟨"service1", "object1", "1", "john", []⟩, none) :=
  ⟨by decide, by decide,
    (revoke_all_empties scenarioRevoke "service1" "object1" "1" "john" ["boo", "baz", "foos"]
      (by decide) (by
        intro e he
        have h : (ACL.Get scenarioRevoke "service1" "object1" "1" "john").1.Privileges
            = [("boo", .str "allow"), ("baz", .str "allow"), ("foos", .str "allow")] := rfl
        rw [h] at he
        simp only [List.mem_cons, List.mem_singleton, List.not_mem_nil, or_false] at he
        rcases he with rfl | rfl | rfl <;> decide)).2⟩

/-- C14 as stated fails: the list `["far", "far.x"]` contains every privilege name of a
record that has `far` alone, but its `$unset` addresses `privileges.far` and
`privileges.far.x` at once; the store rejects the update and Get still shows `far`. -/
theorem revoke_all_empties_counterexample :
    (ACL.Get [⟨"s", "o", "k", "u", [("far", .str "allow")]⟩] "s" "o" "k" "u").2 = none ∧
    mapKeys (ACL.Get [⟨"s", "o", "k", "u", [("far", .str "allow")]⟩]
      "s" "o" "k" "u").1.Privileges = ["far"] ∧
    "far" ∈ (["far", "far.x"] : List String) ∧
    (ACL.Revoke [⟨"s", "o", "k", "u", [("far", .str "allow")]⟩]
      "s" "o" "k" "u" ["far", "far.x"]).2 = some .writeFailed ∧
    ACL.Get (ACL.Revoke [⟨"s", "o", "k", "u", [("far", .str "allow")]⟩]
        "s" "o" "k" "u" ["far", "far.x"]).1 "s" "o" "k" "u"
      = (⟨"s", "o", "k", "u", [("far", .str "allow")]⟩, none) := by
  refine ⟨by decide, rfl, by decide, by decide, rfl⟩

/-! ## The handlers -/

theorem getItemData_ok (w : ResponseWriter) (item : M) (h : carriesStrings item) :
    getItemData w (.doc item) true true
      = ⟨w, item, itemKey item, itemUser item, itemPrivileges item⟩ := by
  obtain ⟨⟨key, hk⟩, ⟨user, hu⟩, ⟨p, privileges, hp, hs⟩⟩ := h
  simp [getItemData, itemKey, itemUser, itemPrivileges, stringField, hk, hu, hp, hs]

theorem hasPrivilegesLoop_ok (c : Collection) (service object : String) (body : List M)
    (hbody : ∀ item ∈ body, usableItem item) (w : ResponseWriter) :
    hasPrivilegesLoop c service object body w
      = (w, some (body.map (hasOutput c service object))) := by
  induction body with
  | nil => rfl
  | cons item rest ih =>
    obtain ⟨hc, hk, hu⟩ := hbody item (List.mem_cons_self _ _)
    have hrest := ih (fun x hx => hbody x (List.mem_cons_of_mem _ hx))
    simp only [hasPrivilegesLoop, getItemData_ok w item hc, hk, hu, or_self, if_false, hrest,
      List.map_cons]
    rcases has_none_or_notFound c service object (itemKey item) (itemUser item)
      (itemPrivileges item) with h | h
    · simp [h, hasOutput]
    · simp [h, hasOutput, Error.message]

/-- C16 (amended): for a body of n items that each carry a non-empty string key, a
non-empty string user and a list of string privileges, `hasPrivilegesHandler` answers
with status 200 and a JSON array of exactly n items, in which item i carries the key
and user of input item i and the privilege "allow" when Has succeeds for it, "deny"
when Has reports not found. -/
theorem has_handler_output (c : Collection) (service object : String) (body : List M)
    (hbody : ∀ item ∈ body, usableItem item) :
    hasPrivilegesHandler ResponseWriter.fresh c service object body
      = ⟨some 200, some "application/json",
          [.json (.arr ((body.map (hasOutput c service object)).map Value.doc))]⟩ ∧
    (body.map (hasOutput c service object)).length = body.length := by
  refine ⟨?_, List.length_map _ _⟩
  unfold hasPrivilegesHandler
  rw [hasPrivilegesLoop_ok c service object body hbody]
  rfl

/-- C16 witness: the two items of the test of Has, on a record with far and fal
allowed and faz denied. -/
theorem has_handler_output_witness :
    (∀ item ∈ ([[("user", .str "john"), ("key", .str "1"),
          ("privileges", .arr [.str "far", .str "fal"])],
        [("user", .str "john"), ("key", .str "1"),
          ("privileges", .arr [.str "far", .str "faz"])]] : List M), usableItem item) ∧
    hasPrivilegesHandler ResponseWriter.fresh
        [⟨"service1", "object1", "1", "john",
          [("far", .str "allow"), ("fal", .str "allow"), ("faz", .str "deny")]⟩]
        "service1" "object1"
        [[("user", .str "john"), ("key", .str "1"),
          ("privileges", .arr [.str "far", .str "fal"])],
        [("user", .str "john"), ("key", .str "1"),
          ("privileges", .arr [.str "far", .str "faz"])]]
      = ⟨some 200, some "application/json",
          [.json (.arr [.doc [("key", .str "1"), ("user", .str "john"),
              ("privilege", .str "allow")],
            .doc [("key", .str "1"), ("user", .str "john"),
              ("privilege", .str "deny")]])]⟩ :=
  have hb : ∀ item ∈ ([[("user", .str "john"), ("key", .str "1"),
          ("privileges", .arr [.str "far", .str "fal"])],
        [("user", .str "john"), ("key", .str "1"),
          ("privileges", .arr [.str "far", .str "faz"])]] : List M), usableItem item := by
    intro item hi
    simp only [List.mem_cons, List.mem_singleton, List.not_mem_nil, or_false] at hi
    rcases hi with rfl | rfl
    · exact ⟨⟨⟨_, rfl⟩, ⟨_, rfl⟩, ⟨_, _, rfl, rfl⟩⟩, by decide, by decide⟩
    · exact ⟨⟨⟨_, rfl⟩, ⟨_, rfl⟩, ⟨_, _, rfl, rfl⟩⟩, by decide, by decide⟩
  ⟨hb, (has_handler_output _ "service1" "object1" _ hb).1⟩

/-- C16 as stated fails: an item whose string key is empty makes the handler return
before anything is written, so the answer is no array at all, although Has on the item
would succeed. -/
theorem has_handler_output_counterexample :
    carriesStrings [("key", .str ""), ("user", .str "john"), ("privileges", .arr [])] ∧
    ACL.Has [⟨"s", "o", "", "john", []⟩] "s" "o" "" "john" [] = none ∧
    hasPrivilegesHandler ResponseWriter.fresh [⟨"s", "o", "", "john", []⟩] "s" "o"
        [[("key", .str ""), ("user", .str "john"), ("privileges", .arr [])]]
      = ResponseWriter.fresh :=
  ⟨⟨⟨_, rfl⟩, ⟨_, rfl⟩, ⟨_, _, rfl, rfl⟩⟩, by decide, rfl⟩

theorem privilegesLoop_ok
    (op : Collection → String → String → String → String → List String →
      Collection × Option Error)
    (msg : String) (service object : String) (body : List M)
    (hbody : ∀ item ∈ body, usableItem item) (w : ResponseWriter) (c c' : Collection)
    (h : applyItems op service object body c = some c') :
    privilegesLoop op msg service object body w c = (w.WriteHeader 204, c') := by
  induction body generalizing c with
  | nil =>
    simp only [applyItems, Option.some.injEq] at h
    rw [← h]; rfl
  | cons item rest ih =>
    obtain ⟨hc, hk, hu⟩ := hbody item (List.mem_cons_self _ _)
    simp only [privilegesLoop, getItemData_ok w item hc, hk, hu, or_self, if_false]
    simp only [applyItems] at h
    cases hop : op c service object (itemKey item) (itemUser item) (itemPrivileges item) with
    | mk c1 err =>
      rw [hop] at h
      cases err with
      | none =>
        simp only at h ⊢
        exact ih (fun x hx => hbody x (List.mem_cons_of_mem _ hx)) c1 h
      | some e => simp at h

/-- C18 (amended): for a body whose items each carry a non-empty string key, a non-empty
string user and a list of string privileges, and a collection on which no call of the
engine fails, `grantPrivilegesHandler`, `denyPrivilegesHandler` and
`revokePrivilegesHandler` apply their operation to every item in order and answer with
status 204 and an empty body. -/
theorem handlers_no_content (c : Collection) (service object : String) (body : List M)
    (hbody : ∀ item ∈ body, usableItem item) :
    (∀ c', applyItems ACL.Grant service object body c = some c' →
      grantPrivilegesHandler ResponseWriter.fresh c service object body
        = (⟨some 204, none, []⟩, c')) ∧
    (∀ c', applyItems ACL.Deny service object body c = some c' →
      denyPrivilegesHandler ResponseWriter.fresh c service object body
        = (⟨some 204, none, []⟩, c')) ∧
    (∀ c', applyItems ACL.Revoke service object body c = some c' →
      revokePrivilegesHandler ResponseWriter.fresh c service object body
        = (⟨some 204, none, []⟩, c')) := by
  refine ⟨?_, ?_, ?_⟩
  · intro c' h
    exact privilegesLoop_ok ACL.Grant _ service object body hbody _ c c' h
  · intro c' h
    exact privilegesLoop_ok ACL.Deny _ service object body hbody _ c c' h
  · intro c' h
    exact privilegesLoop_ok ACL.Revoke _ service object body hbody _ c c' h

/-- C18 witness: the body of the test of Grant on the empty collection. -/
theorem handlers_no_content_witness :
    (∀ item ∈ ([[("user", .str "john"), ("key", .str "1"),
        ("privileges", .arr [.str "faz", .str "boo", .str "baz"])]] : List M),
      usableItem item) ∧
    grantPrivilegesHandler ResponseWriter.fresh [] "service1" "object1"
        [[("user", .str "john"), ("key", .str "1"),
          ("privileges", .arr [.str "faz", .str "boo", .str "baz"])]]
      = (⟨some 204, none, []⟩, scenarioGrant) :=
  have hb : ∀ item ∈ ([[("user", .str "john"), ("key", .str "1"),
        ("privileges", .arr [.str "faz", .str "boo", .str "baz"])]] : List M),
      usableItem item := by
    intro item hi
    rw [List.mem_singleton.mp hi]
    exact ⟨⟨⟨_, rfl⟩, ⟨_, rfl⟩, ⟨_, _, rfl, rfl⟩⟩, by decide, by decide⟩
  ⟨hb, (handlers_no_content [] "service1" "object1" _ hb).1 scenarioGrant rfl⟩

/-- C18 as stated fails: with a first item whose string key is empty no call of the
engine fails (Grant on every item in order would succeed), yet the handler returns at
that item: no status is sent and no item is applied. -/
theorem handlers_no_content_counterexample :
    carriesStrings [("key", .str ""), ("user", .str "john"),
      ("privileges", .arr [.str "far"])] ∧
    carriesStrings [("key", .str "1"), ("user", .str "john"),
      ("privileges", .arr [.str "far"])] ∧
    (applyItems ACL.Grant "s" "o"
        [[("key", .str ""), ("user", .str "john"), ("privileges", .arr [.str "far"])],
         [("key", .str "1"), ("user", .str "john"), ("privileges", .arr [.str "far"])]] []
      = some [⟨"s", "o", "", "john", [("far", .str "allow")]⟩,
          ⟨"s", "o", "1", "john", [("far", .str "allow")]⟩]) ∧
    grantPrivilegesHandler ResponseWriter.fresh [] "s" "o"
        [[("key", .str ""), ("user", .str "john"), ("privileges", .arr [.str "far"])],
         [("key", .str "1"), ("user", .str "john"), ("privileges", .arr [.str "far"])]]
      = (ResponseWriter.fresh, []) :=
  ⟨⟨⟨_, rfl⟩, ⟨_, rfl⟩, ⟨_, _, rfl, rfl⟩⟩, ⟨⟨_, rfl⟩, ⟨_, rfl⟩, ⟨_, _, rfl, rfl⟩⟩, rfl, rfl⟩

/-- C17, the code at an item whose key is the empty string: `getItemData` accepts the
item and writes nothing, and every handler returns at it without sending a status or a
body; the item before it remains applied, the item after it is not. -/
theorem handlers_return_silently :
    (getItemData ResponseWriter.fresh
        (.doc [("key", .str ""), ("user", .str "john"), ("privileges", .arr [.str "far"])])
        true true).w = ResponseWriter.fresh ∧
    (getItemData ResponseWriter.fresh
        (.doc [("key", .str ""), ("user", .str "john"), ("privileges", .arr [.str "far"])])
        true true).key = "" ∧
    grantPrivilegesHandler ResponseWriter.fresh [] "s" "o"
        [[("key", .str "1"), ("user", .str "john"), ("privileges", .arr [.str "far"])],
         [("key", .str ""), ("user", .str "john"), ("privileges", .arr [.str "far"])],
         [("key", .str "2"), ("user", .str "john"), ("privileges", .arr [.str "far"])]]
      = (ResponseWriter.fresh, [⟨"s", "o", "1", "john", [("far", .str "allow")]⟩]) ∧
    denyPrivilegesHandler ResponseWriter.fresh [] "s" "o"
        [[("key", .str ""), ("user", .str "john"), ("privileges", .arr [.str "far"])]]
      = (ResponseWriter.fresh, []) ∧
    revokePrivilegesHandler ResponseWriter.fresh [] "s" "o"
        [[("key", .str ""), ("user", .str "john"), ("privileges", .arr [.str "far"])]]
      = (ResponseWriter.fresh, []) ∧
    setPrivilegesHandler ResponseWriter.fresh [] "s" "o"
        [[("key", .str ""), ("user", .str "john"),
          ("privileges", .doc [("far", .str "allow")])]]
      = (ResponseWriter.fresh, []) ∧
    hasPrivilegesHandler ResponseWriter.fresh [] "s" "o"
        [[("key", .str ""), ("user", .str "john"), ("privileges", .arr [.str "far"])]]
      = ResponseWriter.fresh ∧
    getPrivilegesHandler ResponseWriter.fresh [] "s" "o"
        [[("key", .str ""), ("user", .str "john")]]
      = ResponseWriter.fresh := by
  refine ⟨rfl, rfl, rfl, rfl, rfl, rfl, rfl, rfl⟩

end Authorizer
